import Mathlib

set_option linter.unusedVariables false

deriving instance DecidableEq for Except

/-!
Shallow embedding of the bdk blockchain-sync core:
`crates/electrum/src/bdk_electrum_client.rs` and `crates/bitcoind_rpc/src/lib.rs`.

Block hashes, txids and script pubkeys are abstracted as natural numbers.
The node / index server is modelled as a structure of deterministic
response functions ("oracle"); fallible RPC calls return `Except`.
Rust panics (`assert!`, `expect`, out-of-range indexing) are modelled as
distinguished error constructors so that theorems can separate them from
transport errors.
-/

/-- Rust `u32` modulus, used wherever the source has an `as u32` cast. -/
def U32 : Nat := 2 ^ 32

/-- Rust `i32 as usize` cast (sign-extension then reinterpretation). -/
def toUsize (i : Int) : Nat := (i % (2 ^ 64 : Int)).toNat

/-- Modelled from the spec: `BlockId` of the bdk_chain crate (not among the
sources), a `(height, hash)` pair with equality on both fields (spec section 3). -/
structure BlockId where
  height : Nat
  hash : Nat
deriving DecidableEq

/-- Modelled from the spec: `CheckPoint` of the bdk_chain crate (not among the
sources) is a nonempty singly-linked chain of `BlockId`s, stored tip first with
strictly decreasing heights (spec section 3). -/
structure CheckPoint where
  tip : BlockId
  tail : List BlockId
deriving DecidableEq

def CheckPoint.toList (cp : CheckPoint) : List BlockId := cp.tip :: cp.tail

def CheckPoint.height (cp : CheckPoint) : Nat := cp.tip.height

def CheckPoint.hashv (cp : CheckPoint) : Nat := cp.tip.hash

def CheckPoint.blockId (cp : CheckPoint) : BlockId := cp.tip

def CheckPoint.new (b : BlockId) : CheckPoint := ⟨b, []⟩

/-- Modelled from the spec: `CheckPoint::push` fails exactly when the pushed
height is not greater than the current tip height (spec section 3). -/
def CheckPoint.push (cp : CheckPoint) (b : BlockId) : Option CheckPoint :=
  if cp.height < b.height then some ⟨b, cp.toList⟩ else none

/-- Modelled from the spec: `CheckPoint::get` finds the checkpoint at the given
height (spec section 3).  We return the `BlockId` at that height. -/
def CheckPoint.get (cp : CheckPoint) (h : Nat) : Option BlockId :=
  cp.toList.find? (fun b => b.height == h)

/-- Splice a block into a strictly-decreasing (by height) block list. -/
def insertDesc : List BlockId → BlockId → List BlockId
  | [], b => [b]
  | c :: rest, b =>
    if c.height < b.height then b :: c :: rest
    else if c.height == b.height then b :: rest
    else c :: insertDesc rest b

/-- Modelled from the spec: `CheckPoint::insert` splices a new checkpoint at an
earlier height (spec section 3; `chain_update` only calls it for heights that
are absent and below the tip). -/
def CheckPoint.insertBlock (cp : CheckPoint) (b : BlockId) : CheckPoint :=
  match insertDesc cp.toList b with
  | [] => ⟨b, []⟩
  | x :: xs => ⟨x, xs⟩

/-- The tip-to-genesis sub-chains of a block list (`CheckPoint::iter`). -/
def iterList : List BlockId → List CheckPoint
  | [] => []
  | b :: t => ⟨b, t⟩ :: iterList t

/-- `CheckPoint::iter`: walk the chain tip to genesis, yielding sub-chains. -/
def CheckPoint.iterCPs (cp : CheckPoint) : List CheckPoint := iterList cp.toList

/-- The structural invariant of a checkpoint chain: strictly decreasing
heights from the tip down. -/
def CheckPoint.WF (cp : CheckPoint) : Prop :=
  cp.toList.Pairwise (fun a b => b.height < a.height)

instance (cp : CheckPoint) : Decidable cp.WF := by
  unfold CheckPoint.WF
  infer_instance

/-! ### A `BTreeMap u32 BlockHash` as an ascending association list -/

abbrev BMap := List (Nat × Nat)

def bmGet (m : BMap) (k : Nat) : Option Nat :=
  (m.find? (fun e => e.1 == k)).map (fun e => e.2)

def bmInsert (m : BMap) (e : Nat × Nat) : BMap :=
  match m with
  | [] => [e]
  | a :: rest =>
    if e.1 < a.1 then e :: a :: rest
    else if e.1 == a.1 then e :: rest
    else a :: bmInsert rest e

def bmSorted (m : BMap) : Prop := m.Pairwise (fun a b => a.1 < b.1)

/-! ### Electrum-side data model (`crates/electrum/src/bdk_electrum_client.rs`) -/

abbrev ScriptT := Nat

/-- A block header; `hashv` stands for `Header::block_hash()`. -/
structure Header where
  hashv : Nat
  time : Nat
  merkleRoot : Nat
deriving DecidableEq

/-- One entry of `script_get_history` (electrum `GetHistoryRes`):
`{ tx_hash, height : i32 }`. -/
structure HistoryItem where
  tx_hash : Nat
  height : Int
deriving DecidableEq

/-- The result of `transaction_get_merkle`; the merkle path itself is abstract
(it is consumed only by the external `validate_merkle_proof` primitive, which
the oracle models as a boolean function of the whole result). -/
structure MerkleRes where
  block_height : Nat
deriving DecidableEq

structure OutPoint where
  txid : Nat
  vout : Nat
deriving DecidableEq

structure TxOut where
  script_pubkey : ScriptT
  value : Nat
deriving DecidableEq

/-- A `bitcoin::Transaction`, keeping only the fields the sources read. -/
structure Tx where
  txid : Nat
  input : List OutPoint
  output : List TxOut
deriving DecidableEq

/-- `electrum_client::Error`, collapsed to the cases the sources distinguish:
`Error::Protocol(_)` (matched in `populate_with_txids`) and everything else. -/
inductive EErr where
  | protocol (n : Nat)
  | other (n : Nat)
deriving DecidableEq

/-- Rust panics reachable in the electrum sources. -/
inductive PanicKind where
  | indexOOB
  | noOutput
  | noCheckpoint
  | pushFailed
  | assertFailed
deriving DecidableEq

/-- Either a surfaced `electrum_client::Error` or a panic. -/
inductive ElErr where
  | api (e : EErr)
  | panic (k : PanicKind)
deriving DecidableEq

def apiE {α : Type} : Except EErr α → Except ElErr α
  | .ok a => .ok a
  | .error e => .error (.api e)

/-- `ConfirmationTimeHeightAnchor` of bdk_chain (shape from spec section 3;
constructed only by `validate_merkle_for_anchor` in the sources). -/
structure ConfirmationTimeHeightAnchor where
  confirmation_height : Nat
  confirmation_time : Nat
  anchor_block : BlockId
deriving DecidableEq

/-- Modelled from the spec: the transaction-graph update container of
bdk_chain (not among the sources): a txid-keyed transaction collection, a set
of `(anchor, txid)` pairs, and an outpoint-to-txout mapping; insertion is
idempotent (spec section 3). -/
structure TxGraph where
  txs : List Tx
  anchors : List (ConfirmationTimeHeightAnchor × Nat)
  txouts : List (OutPoint × TxOut)
deriving DecidableEq

def TxGraph.empty : TxGraph := ⟨[], [], []⟩

def TxGraph.insert_tx (g : TxGraph) (t : Tx) : TxGraph :=
  if g.txs.any (fun u => u.txid == t.txid) then g else { g with txs := g.txs ++ [t] }

def TxGraph.insert_anchor (g : TxGraph) (txid : Nat) (a : ConfirmationTimeHeightAnchor) :
    TxGraph :=
  if (a, txid) ∈ g.anchors then g else { g with anchors := g.anchors ++ [(a, txid)] }

def TxGraph.insert_txout (g : TxGraph) (op : OutPoint) (txo : TxOut) : TxGraph :=
  if g.txouts.any (fun e => e.1 == op) then g else { g with txouts := g.txouts ++ [(op, txo)] }

/-- The Electrum index server, as deterministic response functions.
`validMerkle txid merkleRoot res` stands for the external primitive
`electrum_client::utils::validate_merkle_proof(&txid, &header.merkle_root, &res)`. -/
structure ElectrumOracle where
  subscribeTip : Except EErr Nat
  blockHeadersRange : Nat → Nat → Except EErr (List Header)
  blockHeaderAt : Nat → Except EErr Header
  batchHistory : List ScriptT → Except EErr (List (List HistoryItem))
  scriptHistory : ScriptT → Except EErr (List HistoryItem)
  txGet : Nat → Except EErr Tx
  merkle : Nat → Nat → Except EErr MerkleRes
  validMerkle : Nat → Nat → MerkleRes → Bool

/-- `BdkElectrumClient::fetch_tx`.  The mutex-guarded tx cache is
behaviour-preserving here: with a deterministic oracle and an initially empty
cache, a cache hit returns exactly the value a fresh `transaction_get` would,
so the cache is elided. -/
def fetch_tx (O : ElectrumOracle) (txid : Nat) : Except EErr Tx := O.txGet txid

/-- `validate_merkle_for_anchor`: a failing `transaction_get_merkle` is
swallowed (`if let Ok(..)`); a failing `block_header` propagates (`?`); on
successful proof validation the anchor is inserted.  The `as u32` casts of
`merkle_res.block_height` are kept. -/
def validate_merkle_for_anchor (O : ElectrumOracle) (g : TxGraph) (txid : Nat)
    (confirmation_height : Int) : Except ElErr TxGraph :=
  match O.merkle txid (toUsize confirmation_height) with
  | .error _ => .ok g
  | .ok merkle_res =>
    match O.blockHeaderAt merkle_res.block_height with
    | .error e => .error (.api e)
    | .ok header =>
      if O.validMerkle txid header.merkleRoot merkle_res then
        .ok (g.insert_anchor txid
          { confirmation_height := merkle_res.block_height % U32
            confirmation_time := header.time
            anchor_block := ⟨merkle_res.block_height % U32, header.hashv⟩ })
      else .ok g

/-- The inner `for tx_res in spk_history` loop of `populate_with_spks`:
fetch each transaction, insert it, then attempt the merkle anchor. -/
def anchorHistory (O : ElectrumOracle) : TxGraph → List HistoryItem → Except ElErr TxGraph
  | g, [] => .ok g
  | g, r :: rest =>
    match fetch_tx O r.tx_hash with
    | .error e => .error (.api e)
    | .ok tx =>
      match validate_merkle_for_anchor O (g.insert_tx tx) r.tx_hash r.height with
      | .error e => .error e
      | .ok g2 => anchorHistory O g2 rest

/-- The `for ((spk_index, _spk), spk_history)` loop body of
`populate_with_spks`: `Sum.inr` is the early `return` when
`unused_spk_count > stop_gap`, `Sum.inl` continues the outer loop. -/
def process_batch (O : ElectrumOracle) (stop_gap : Nat) :
    TxGraph → List ((Nat × ScriptT) × List HistoryItem) → Nat → Option Nat →
    Except ElErr ((TxGraph × Nat × Option Nat) ⊕ (TxGraph × Option Nat))
  | g, [], unused, la => .ok (.inl (g, unused, la))
  | g, ((i, _s), hist) :: rest, unused, la =>
    if hist.isEmpty then
      if stop_gap < unused + 1 then .ok (.inr (g, la))
      else process_batch O stop_gap g rest (unused + 1) la
    else
      match anchorHistory O g hist with
      | .error e => .error e
      | .ok g2 => process_batch O stop_gap g2 rest 0 (some i)

/-- The outer `loop` of `populate_with_spks`.  Rust loops until the iterator
is exhausted or the gap limit trips; we recurse on an explicit fuel, which the
wrapper sets above the number of remaining scripts (one batch of at least one
script is consumed per iteration, so the fuel never runs out; the fuel-zero
branch is unreachable from the wrapper).  The third result component records,
per processed batch, the `(index, history)` pairs obtained from
`batch_script_get_history` — the scripts that were queried and their
responses. -/
def populate_go (O : ElectrumOracle) (stop_gap batch_size : Nat) :
    Nat → TxGraph → List (Nat × ScriptT) → Nat → Option Nat →
    List (Nat × List HistoryItem) →
    Except ElErr (TxGraph × Option Nat × List (Nat × List HistoryItem))
  | 0, g, _, _, la, trace => .ok (g, la, trace)
  | fuel + 1, g, spks, unused, la, trace =>
    let batch := spks.take batch_size
    if batch.isEmpty then .ok (g, la, trace)
    else
      match O.batchHistory (batch.map Prod.snd) with
      | .error e => .error (.api e)
      | .ok hists =>
        let zipped := batch.zip hists
        let trace2 := trace ++ zipped.map (fun e => (e.1.1, e.2))
        match process_batch O stop_gap g zipped unused la with
        | .error e => .error e
        | .ok (.inr (g2, la2)) => .ok (g2, la2, trace2)
        | .ok (.inl (g2, unused2, la2)) =>
          populate_go O stop_gap batch_size fuel g2 (spks.drop batch_size) unused2 la2 trace2

/-- `populate_with_spks`. -/
def populate_with_spks (O : ElectrumOracle) (g : TxGraph) (spks : List (Nat × ScriptT))
    (stop_gap batch_size : Nat) :
    Except ElErr (TxGraph × Option Nat × List (Nat × List HistoryItem)) :=
  populate_go O stop_gap batch_size (spks.length + 1) g spks 0 none []

/-- The inner history walk of `populate_with_outpoints`: collect the residing
transaction and the spending transaction, stopping once both are found. -/
def outpointHistLoop (O : ElectrumOracle) (outpoint : OutPoint) (op_tx : Tx) :
    TxGraph → List HistoryItem → Bool → Bool → Except ElErr TxGraph
  | g, [], _, _ => .ok g
  | g, res :: rest, has_residing, has_spending =>
    if has_residing && has_spending then .ok g
    else
      match
        (if !has_residing && (res.tx_hash == outpoint.txid) then
          validate_merkle_for_anchor O (g.insert_tx op_tx) res.tx_hash res.height
        else .ok g) with
      | .error e => .error e
      | .ok g2 =>
        let has_residing2 := has_residing || (res.tx_hash == outpoint.txid)
        if !has_spending && (res.tx_hash != outpoint.txid) then
          match fetch_tx O res.tx_hash with
          | .error e => .error (.api e)
          | .ok res_tx =>
            if res_tx.input.any (fun txin => txin == outpoint) then
              match validate_merkle_for_anchor O (g2.insert_tx res_tx) res.tx_hash res.height with
              | .error e => .error e
              | .ok g3 => outpointHistLoop O outpoint op_tx g3 rest has_residing2 true
            else outpointHistLoop O outpoint op_tx g2 rest has_residing2 has_spending
        else outpointHistLoop O outpoint op_tx g2 rest has_residing2 has_spending

/-- `populate_with_outpoints`.  Note the guarded output lookup:
`op_tx.output.get(outpoint.vout as usize)` with `None => continue`.
(The `debug_assert_eq!` of the source is compiled out in release builds and is
not modelled.) -/
def populate_with_outpoints (O : ElectrumOracle) :
    TxGraph → List OutPoint → Except ElErr TxGraph
  | g, [] => .ok g
  | g, outpoint :: rest =>
    match fetch_tx O outpoint.txid with
    | .error e => .error (.api e)
    | .ok op_tx =>
      match op_tx.output.get? outpoint.vout with
      | none => populate_with_outpoints O g rest
      | some op_txout =>
        match O.scriptHistory op_txout.script_pubkey with
        | .error e => .error (.api e)
        | .ok hist =>
          match outpointHistLoop O outpoint op_tx g hist false false with
          | .error e => .error e
          | .ok g2 => populate_with_outpoints O g2 rest

/-- `populate_with_txids`: `Error::Protocol` on the fetch means the txid is
unknown and is skipped; `tx.output.first().expect(..)` panics on a
transaction without outputs. -/
def populate_with_txids (O : ElectrumOracle) :
    TxGraph → List Nat → Except ElErr TxGraph
  | g, [] => .ok g
  | g, txid :: rest =>
    match fetch_tx O txid with
    | .error (.protocol _) => populate_with_txids O g rest
    | .error e => .error (.api e)
    | .ok tx =>
      match tx.output.head? with
      | none => .error (.panic .noOutput)
      | some txo =>
        match O.scriptHistory txo.script_pubkey with
        | .error e => .error (.api e)
        | .ok hist =>
          match
            (match hist.find? (fun r => r.tx_hash == txid) with
            | some r => validate_merkle_for_anchor O g txid r.height
            | none => .ok g) with
          | .error e => .error e
          | .ok g2 => populate_with_txids O (g2.insert_tx tx) rest

/-- The per-transaction inner loop of `fetch_prev_txout`: the source indexes
`prev_tx.output[vout as usize]` without a bounds check, which panics when
`vout` is out of range. -/
def prevTxoutInputs (O : ElectrumOracle) : TxGraph → List OutPoint → Except ElErr TxGraph
  | g, [] => .ok g
  | g, vin :: rest =>
    match fetch_tx O vin.txid with
    | .error e => .error (.api e)
    | .ok prev_tx =>
      match prev_tx.output.get? vin.vout with
      | none => .error (.panic .indexOOB)
      | some txout => prevTxoutInputs O (g.insert_txout vin txout) rest

/-- Outer loop of `fetch_prev_txout` over the graph's full transactions
(collected before the loop mutates the graph, as in the source). -/
def prevTxoutTxs (O : ElectrumOracle) : TxGraph → List Tx → Except ElErr TxGraph
  | g, [] => .ok g
  | g, tx :: rest =>
    match prevTxoutInputs O g tx.input with
    | .error e => .error e
    | .ok g2 => prevTxoutTxs O g2 rest

/-- `fetch_prev_txout`. -/
def fetch_prev_txout (O : ElectrumOracle) (g : TxGraph) : Except ElErr TxGraph :=
  prevTxoutTxs O g g.txs

/-- `const CHAIN_SUFFIX_LENGTH: u32 = 8`. -/
def CHAIN_SUFFIX_LENGTH : Nat := 8

/-- The "point of agreement" walk of `fetch_tip_and_latest_blocks`: for each
checkpoint, take the server hash at its height from `new_blocks`, fetching and
inserting it when absent (with the source's `assert!(new_tip_height >=
cp_block.height)`), and stop at the first checkpoint whose hash matches. -/
def agreement_walk_el (O : ElectrumOracle) (new_tip_height : Nat) :
    List CheckPoint → BMap → Except ElErr (Option CheckPoint × BMap)
  | [], m => .ok (none, m)
  | cp :: rest, m =>
    let cp_block := cp.blockId
    match bmGet m cp_block.height with
    | some hash =>
      if hash == cp_block.hash then .ok (some cp, m)
      else agreement_walk_el O new_tip_height rest m
    | none =>
      if new_tip_height < cp_block.height then .error (.panic .assertFailed)
      else
        match O.blockHeaderAt cp_block.height with
        | .error e => .error (.api e)
        | .ok hd =>
          let m2 := bmInsert m (cp_block.height, hd.hashv)
          if hd.hashv == cp_block.hash then .ok (some cp, m2)
          else agreement_walk_el O new_tip_height rest m2

/-- The final fold of `fetch_tip_and_latest_blocks`: push every pruned block
onto the agreement checkpoint; `cp.push(..).expect("must extend checkpoint")`
is the `pushFailed` panic. -/
def extend_tip (agreement : Option CheckPoint) (entries : List (Nat × Nat)) :
    Except ElErr (Option CheckPoint) :=
  entries.foldlM
    (fun acc e =>
      match acc with
      | some cp =>
        match cp.push ⟨e.1, e.2⟩ with
        | some cp2 => .ok (some cp2)
        | none => .error (.panic .pushFailed)
      | none => .ok (some (CheckPoint.new ⟨e.1, e.2⟩)))
    agreement

/-- `fetch_tip_and_latest_blocks`. -/
def fetch_tip_and_latest_blocks (O : ElectrumOracle) (prev_tip : CheckPoint) :
    Except ElErr (CheckPoint × BMap) :=
  match O.subscribeTip with
  | .error e => .error (.api e)
  | .ok h =>
    let new_tip_height := h % U32
    if new_tip_height < prev_tip.height then .ok (prev_tip, [])
    else
      let start_height := new_tip_height - (CHAIN_SUFFIX_LENGTH - 1)
      match O.blockHeadersRange start_height CHAIN_SUFFIX_LENGTH with
      | .error e => .error (.api e)
      | .ok headers =>
        let new_blocks :=
          ((List.range' start_height headers.length).zip
            (headers.map Header.hashv)).foldl bmInsert []
        match agreement_walk_el O new_tip_height prev_tip.iterCPs new_blocks with
        | .error e => .error e
        | .ok (agreement_cp, new_blocks2) =>
          let agreement_height := agreement_cp.map CheckPoint.height
          let pruned := new_blocks2.filter
            (fun e => match agreement_height with | none => true | some ah => ah < e.1)
          match extend_tip agreement_cp pruned with
          | .error e => .error e
          | .ok none => .error (.panic .noCheckpoint)
          | .ok (some new_tip) => .ok (new_tip, new_blocks2)

/-- `chain_update`: add a checkpoint per anchor height when absent and not
above the tip, taking the hash from `latest_blocks` when present there and
from the anchor itself otherwise.  (The source's `Result` return is
infallible: it always returns `Ok(tip)`.) -/
def chain_update (tip : CheckPoint) (latest_blocks : BMap)
    (anchors : List (ConfirmationTimeHeightAnchor × Nat)) : CheckPoint :=
  anchors.foldl
    (fun tip a =>
      let height := a.1.anchor_block.height
      if (tip.get height).isNone ∧ height ≤ tip.height then
        let hash := (bmGet latest_blocks height).getD a.1.anchor_block.hash
        tip.insertBlock ⟨height, hash⟩
      else tip)
    tip

structure FullScanRequest where
  chain_tip : CheckPoint
  spks_by_keychain : List (Nat × List (Nat × ScriptT))

structure FullScanResult where
  graph_update : TxGraph
  chain_update : CheckPoint
  last_active_indices : List (Nat × Nat)
deriving DecidableEq

structure SyncRequest where
  chain_tip : CheckPoint
  spks : List ScriptT
  txids : List Nat
  outpoints : List OutPoint

structure SyncResult where
  graph_update : TxGraph
  chain_update : CheckPoint
deriving DecidableEq

/-- The `for (keychain, keychain_spks) in request.spks_by_keychain` loop of
`full_scan`. -/
def scan_keychains (O : ElectrumOracle) (stop_gap batch_size : Nat) :
    TxGraph → List (Nat × List (Nat × ScriptT)) → List (Nat × Nat) →
    Except ElErr (TxGraph × List (Nat × Nat))
  | g, [], acc => .ok (g, acc)
  | g, (keychain, spks) :: rest, acc =>
    match populate_with_spks O g spks stop_gap batch_size with
    | .error e => .error e
    | .ok (g2, la, _trace) =>
      match la with
      | some i => scan_keychains O stop_gap batch_size g2 rest (acc ++ [(keychain, i)])
      | none => scan_keychains O stop_gap batch_size g2 rest acc

/-- `BdkElectrumClient::full_scan`. -/
def full_scan (O : ElectrumOracle) (request : FullScanRequest)
    (stop_gap batch_size : Nat) (fetch_prev_txouts : Bool) :
    Except ElErr FullScanResult :=
  match fetch_tip_and_latest_blocks O request.chain_tip with
  | .error e => .error e
  | .ok (tip, latest_blocks) =>
    match scan_keychains O stop_gap batch_size TxGraph.empty request.spks_by_keychain [] with
    | .error e => .error e
    | .ok (graph_update, last_active_indices) =>
      let cu := chain_update tip latest_blocks graph_update.anchors
      match (if fetch_prev_txouts then fetch_prev_txout O graph_update
             else .ok graph_update) with
      | .error e => .error e
      | .ok graph_update2 => .ok ⟨graph_update2, cu, last_active_indices⟩

/-- `usize::MAX`, the `stop_gap` that `sync` passes to `full_scan`. -/
def USIZE_MAX : Nat := 2 ^ 64 - 1

/-- `BdkElectrumClient::sync`.  The unit keychain `()` is modelled as key `0`;
`request.spks.enumerate()` becomes the positional enumeration. -/
def syncScan (O : ElectrumOracle) (request : SyncRequest)
    (batch_size : Nat) (fetch_prev_txouts : Bool) : Except ElErr SyncResult :=
  let full_scan_req : FullScanRequest :=
    ⟨request.chain_tip, [(0, request.spks.enum)]⟩
  match full_scan O full_scan_req USIZE_MAX batch_size false with
  | .error e => .error e
  | .ok full_scan_res =>
    match fetch_tip_and_latest_blocks O request.chain_tip with
    | .error e => .error e
    | .ok (tip, latest_blocks) =>
      match populate_with_txids O full_scan_res.graph_update request.txids with
      | .error e => .error e
      | .ok g1 =>
        match populate_with_outpoints O g1 request.outpoints with
        | .error e => .error e
        | .ok g2 =>
          let cu := chain_update tip latest_blocks g2.anchors
          match (if fetch_prev_txouts then fetch_prev_txout O g2 else .ok g2) with
          | .error e => .error e
          | .ok g3 => .ok ⟨g3, cu⟩

/-! ### RPC block emitter (`crates/bitcoind_rpc/src/lib.rs`) -/

/-- `bitcoincore_rpc::Error`, collapsed to the cases the sources distinguish:
`Error::JsonRpc(jsonrpc::Error::Rpc(e))` carrying a code (tested against `-5`
by `is_not_found_error`) and every other variant. -/
inductive RErr where
  | rpc (code : Int)
  | transport (n : Nat)
deriving DecidableEq

/-- `BitcoindRpcErrorExt::is_not_found_error`. -/
def is_not_found_error : RErr → Bool
  | .rpc code => code == -5
  | .transport _ => false

/-- `bitcoincore_rpc_json::GetBlockResult`, keeping only the fields the
sources read (`height` is a Rust `usize`, `confirmations` an `i32`). -/
structure GetBlockResult where
  hash : Nat
  height : Nat
  confirmations : Int
  previousblockhash : Option Nat
  nextblockhash : Option Nat
deriving DecidableEq

/-- One value of `get_raw_mempool_verbose`: the first-seen unix time and the
block height at which the transaction entered the mempool. -/
structure MempoolEntry where
  time : Nat
  height : Nat
deriving DecidableEq

/-- The bitcoind node, as deterministic response functions.  `get_item` stands
for the closure passed to `poll` (`get_block` for `next_block`,
`get_block_header` for `next_header`). -/
structure RpcOracle (V : Type) where
  get_block_hash : Nat → Except RErr Nat
  get_block_info : Nat → Except RErr GetBlockResult
  get_item : Nat → Except RErr V
  get_raw_mempool_verbose : Except RErr (List (Nat × MempoolEntry))
  get_raw_transaction : Nat → Except RErr Tx

/-- The private state of `Emitter` (the RPC client reference is the oracle). -/
structure Emitter where
  start_height : Nat
  last_cp : Option CheckPoint
  last_block : Option GetBlockResult
  last_mempool_time : Nat
  last_mempool_tip : Option Nat
deriving DecidableEq

/-- `Emitter::from_height`. -/
def Emitter.from_height (h : Nat) : Emitter := ⟨h, none, none, 0, none⟩

/-- `Emitter::from_checkpoint`. -/
def Emitter.from_checkpoint (cp : CheckPoint) : Emitter := ⟨0, some cp, none, 0, none⟩

inductive PollResponse where
  | block (res : GetBlockResult)
  | noMoreBlocks
  | blockNotInBestChain
  | agreementFound (res : GetBlockResult) (cp : CheckPoint)
  | agreementPointNotFound
deriving DecidableEq

/-- Errors of the emitter functions: a surfaced RPC error, the
`assert!(emitter.last_cp.is_some(), ..)` panic, or the
`.expect("must push")` panic. -/
inductive EmitErr where
  | rpcE (e : RErr)
  | assertNoLastCp
  | pushPanic
deriving DecidableEq

/-- The checkpoint walk of `poll_once` (its final `for cp in ... .iter()`
loop): skip checkpoints whose block info reports negative confirmations,
stop at the first agreeing one. -/
def rpc_agreement_walk {V : Type} (O : RpcOracle V) :
    List CheckPoint → Except RErr PollResponse
  | [] => .ok .agreementPointNotFound
  | cp :: rest =>
    match O.get_block_info cp.hashv with
    | .error e => .error e
    | .ok res =>
      if res.confirmations < 0 then rpc_agreement_walk O rest
      else .ok (.agreementFound res cp)

/-- `poll_once`. -/
def poll_once {V : Type} (O : RpcOracle V) (s : Emitter) : Except EmitErr PollResponse :=
  match s.last_block with
  | some last_res =>
    if s.last_cp.isNone then .error .assertNoLastCp
    else
      match last_res.nextblockhash with
      | none => .ok .noMoreBlocks
      | some next_hash =>
        match O.get_block_info next_hash with
        | .error e => .error (.rpcE e)
        | .ok res =>
          if res.confirmations < 0 then .ok .blockNotInBestChain
          else .ok (.block res)
  | none =>
    match s.last_cp with
    | none =>
      match O.get_block_hash s.start_height with
      | .error e => .error (.rpcE e)
      | .ok hash =>
        match O.get_block_info hash with
        | .error e => .error (.rpcE e)
        | .ok res =>
          if res.confirmations < 0 then .ok .blockNotInBestChain
          else .ok (.block res)
    | some cp =>
      match rpc_agreement_walk O cp.iterCPs with
      | .error e => .error (.rpcE e)
      | .ok r => .ok r

/-- The driver `loop` of `poll`.  Rust loops until a terminal response; we
recurse on explicit fuel (`none` = fuel exhausted; with deterministic node
responses the Rust loop can itself spin forever, so termination is genuinely
conditional).  `res.height as u32` is kept as `% U32`; `height - 1` for the
seed checkpoint is Nat subtraction, which like the Rust `u32` subtraction
makes the subsequent `push` fail (`pushPanic`) at height 0. -/
def poll {V : Type} (O : RpcOracle V) :
    Nat → Emitter → Option (Except EmitErr (Emitter × Option (Nat × V)))
  | 0, _ => none
  | fuel + 1, s =>
    match poll_once O s with
    | .error e => some (.error e)
    | .ok (.block res) =>
      let height := res.height % U32
      let hash := res.hash
      match O.get_item hash with
      | .error e => some (.error (.rpcE e))
      | .ok item =>
        let this_id : BlockId := ⟨height, hash⟩
        match s.last_cp, res.previousblockhash.map (fun ph => (⟨height - 1, ph⟩ : BlockId)) with
        | some cp, _ =>
          match cp.push this_id with
          | none => some (.error .pushPanic)
          | some cp2 =>
            some (.ok ({ s with last_cp := some cp2, last_block := some res },
              some (height, item)))
        | none, none =>
          some (.ok ({ s with last_cp := some (CheckPoint.new this_id), last_block := some res },
            some (height, item)))
        | none, some prev_id =>
          match (CheckPoint.new prev_id).push this_id with
          | none => some (.error .pushPanic)
          | some cp2 =>
            some (.ok ({ s with last_cp := some cp2, last_block := some res },
              some (height, item)))
    | .ok .noMoreBlocks => some (.ok ({ s with last_block := none }, none))
    | .ok .blockNotInBestChain => poll O fuel { s with last_block := none }
    | .ok (.agreementFound res cp) =>
      let agreement_h := res.height % U32
      poll O fuel
        { s with
          last_cp := some cp
          last_mempool_tip :=
            s.last_mempool_tip.map (fun h => if agreement_h < h then agreement_h else h)
          last_block := some res }
    | .ok .agreementPointNotFound =>
      match s.last_cp with
      | some last_cp =>
        poll O fuel
          { s with start_height := last_cp.height, last_cp := none, last_block := none }
      | none => poll O fuel { s with last_block := none }

/-- The entry filter-and-fetch fold of `Emitter::mempool` (the `filter_map`
and fallible `collect`): `latest` threads the running `latest_time`; a
not-found (`-5`) fetch error silently drops the entry, any other error
aborts the whole pass. -/
def mempool_go {V : Type} (O : RpcOracle V) (prev_mempool_time prev_mempool_tip : Nat) :
    List (Nat × MempoolEntry) → Nat → List (Tx × Nat) →
    Except RErr (Nat × List (Tx × Nat))
  | [], latest, acc => .ok (latest, acc.reverse)
  | (txid, tx_entry) :: rest, latest, acc =>
    let tx_time := tx_entry.time
    let latest2 := if latest < tx_time then tx_time else latest
    if tx_time ≤ prev_mempool_time ∧ tx_entry.height ≤ prev_mempool_tip then
      mempool_go O prev_mempool_time prev_mempool_tip rest latest2 acc
    else
      match O.get_raw_transaction txid with
      | .ok tx => mempool_go O prev_mempool_time prev_mempool_tip rest latest2 ((tx, tx_time) :: acc)
      | .error err =>
        if is_not_found_error err then
          mempool_go O prev_mempool_time prev_mempool_tip rest latest2 acc
        else .error err

/-- `Emitter::mempool`.  The state is committed (`last_mempool_time`,
`last_mempool_tip`) only after the whole collection succeeds; on error the
`?` early-returns first, so the returned state is the input state. -/
def mempool {V : Type} (O : RpcOracle V) (s : Emitter) :
    Emitter × Except RErr (List (Tx × Nat)) :=
  let prev_mempool_tip := s.last_mempool_tip.getD (s.start_height - 1)
  let prev_mempool_time := s.last_mempool_time
  match O.get_raw_mempool_verbose with
  | .error e => (s, .error e)
  | .ok entries =>
    match mempool_go O prev_mempool_time prev_mempool_tip entries prev_mempool_time [] with
    | .error e => (s, .error e)
    | .ok (latest_time, txs_to_emit) =>
      ({ s with
          last_mempool_time := latest_time
          last_mempool_tip := s.last_cp.map CheckPoint.height },
        .ok txs_to_emit)

/-! ### Concrete oracles used by counterexamples and witnesses -/

/-- A one-keychain scan scenario: server tip at height 1, agreement at the
caller's height-0 checkpoint, one active script whose transaction the server
reports with a merkle proof at height 5 (above the tip window). -/
def O1c : ElectrumOracle where
  subscribeTip := .ok 1
  blockHeadersRange := fun _ _ => .ok [⟨50, 0, 0⟩, ⟨51, 0, 0⟩]
  blockHeaderAt := fun h => .ok ⟨500 + h, 90, 7⟩
  batchHistory := fun ss => .ok (ss.map (fun _ => [⟨100, 1⟩]))
  scriptHistory := fun _ => .ok []
  txGet := fun t => .ok ⟨t, [], [⟨7, 10⟩]⟩
  merkle := fun _ _ => .ok ⟨5⟩
  validMerkle := fun _ _ _ => true

def req1c : FullScanRequest := ⟨⟨⟨0, 50⟩, []⟩, [(0, [(0, 7)])]⟩

/-- A scan scenario whose discovered transaction spends vout 5 of a
transaction that has a single output. -/
def O10 : ElectrumOracle where
  subscribeTip := .ok 1
  blockHeadersRange := fun _ _ => .ok [⟨50, 0, 0⟩, ⟨51, 0, 0⟩]
  blockHeaderAt := fun _ => .error (.other 0)
  batchHistory := fun ss => .ok (ss.map (fun _ => [⟨1, 1⟩]))
  scriptHistory := fun _ => .ok []
  txGet := fun t =>
    if t == 1 then .ok ⟨1, [⟨2, 5⟩], [⟨9, 1⟩]⟩
    else if t == 2 then .ok ⟨2, [], [⟨8, 3⟩]⟩
    else .error (.other 1)
  merkle := fun _ _ => .error (.other 0)
  validMerkle := fun _ _ _ => false

def req10 : FullScanRequest := ⟨⟨⟨0, 50⟩, []⟩, [(0, [(0, 7)])]⟩

/-- A gap-limit scenario: only script index 0 has history; merkle requests
fail (so no anchors), and every script's history is served per script. -/
def O2c : ElectrumOracle where
  subscribeTip := .ok 1
  blockHeadersRange := fun _ _ => .ok [⟨50, 0, 0⟩]
  blockHeaderAt := fun _ => .error (.other 0)
  batchHistory := fun ss => .ok (ss.map (fun s => if s == 0 then [⟨100, 1⟩] else []))
  scriptHistory := fun _ => .ok []
  txGet := fun t => .ok ⟨t, [], []⟩
  merkle := fun _ _ => .error (.other 0)
  validMerkle := fun _ _ _ => false

/-- C10: previous-output hydration is not total.  On a reachable input — a
discovered transaction with an input whose `previous_output.vout` (5) is not
below the output count (1) of the fetched previous transaction —
`fetch_prev_txout`, reached here through `full_scan` with
`fetch_prev_txouts = true`, hits the unguarded `prev_tx.output[vout]` index
and panics (`.panic .indexOOB`), while the outpoint-targeted scan
(`populate_with_outpoints`) guards the same lookup and skips the outpoint. -/
theorem fetch_prev_txout_panics_on_oob_vout :
    full_scan O10 req10 5 10 true = .error (.panic .indexOOB)
    ∧ populate_with_outpoints O10 TxGraph.empty [⟨2, 5⟩] = .ok TxGraph.empty := by
  constructor
  · decide
  · decide

/-- C7: merkle-verified anchoring.  If the merkle-proof request errors, the
graph is returned unchanged (no anchor; the already-inserted transaction
stays).  If the proof validates against the fetched header, the inserted
anchor is exactly `ConfirmationTimeHeightAnchor` with
`confirmation_height = proof.block_height`, `confirmation_time = header.time`
and `anchor_block = (proof.block_height, header.block_hash())`; anchor
insertion never changes the transaction set. -/
theorem validate_merkle_for_anchor_spec (O : ElectrumOracle) (g : TxGraph)
    (txid : Nat) (ch : Int) :
    (∀ e, O.merkle txid (toUsize ch) = .error e →
      validate_merkle_for_anchor O g txid ch = .ok g)
    ∧ (∀ m hd, O.merkle txid (toUsize ch) = .ok m →
        O.blockHeaderAt m.block_height = .ok hd →
        O.validMerkle txid hd.merkleRoot m = true →
        m.block_height < U32 →
        validate_merkle_for_anchor O g txid ch =
          .ok (g.insert_anchor txid ⟨m.block_height, hd.time, ⟨m.block_height, hd.hashv⟩⟩)
        ∧ (g.insert_anchor txid
            ⟨m.block_height, hd.time, ⟨m.block_height, hd.hashv⟩⟩).txs = g.txs) := by
  constructor
  · intro e he
    unfold validate_merkle_for_anchor
    rw [he]
  · intro m hd hm hhd hv hlt
    constructor
    · unfold validate_merkle_for_anchor
      simp only [hm, hhd, hv, if_true]
      rw [Nat.mod_eq_of_lt hlt]
    · unfold TxGraph.insert_anchor
      split
      · rfl
      · rfl

/-- Witness for C7: both branches of the theorem at concrete servers. -/
theorem validate_merkle_for_anchor_spec_witness :
    validate_merkle_for_anchor O2c TxGraph.empty 1 1 = .ok TxGraph.empty
    ∧ validate_merkle_for_anchor O1c TxGraph.empty 1 1 =
        .ok (TxGraph.empty.insert_anchor 1 ⟨5, 90, ⟨5, 505⟩⟩) :=
  ⟨(validate_merkle_for_anchor_spec O2c TxGraph.empty 1 1).1 (.other 0) (by decide),
   ((validate_merkle_for_anchor_spec O1c TxGraph.empty 1 1).2 ⟨5⟩ ⟨505, 90, 7⟩
      (by decide) (by decide) (by decide) (by decide)).1⟩

/-! ### Mempool emitter lemmas (C4, C8) -/

theorem if_lt_eq_max (a b : Nat) : (if a < b then b else a) = max a b := by
  rw [Nat.max_def]
  split
  · split
    · rfl
    · omega
  · split
    · omega
    · rfl

/-- The per-entry emission decision of `Emitter::mempool`, as the claim
states it: skip when both the first-seen time and the originally-seen height
are old; otherwise keep the fetched transaction, dropping fetch misses. -/
def mempoolEmit {V : Type} (O : RpcOracle V) (prev_mempool_time prev_mempool_tip : Nat)
    (p : Nat × MempoolEntry) : Option (Tx × Nat) :=
  if p.2.time ≤ prev_mempool_time ∧ p.2.height ≤ prev_mempool_tip then none
  else
    match O.get_raw_transaction p.1 with
    | .ok tx => some (tx, p.2.time)
    | .error _ => none

theorem mempool_go_ok_out {V : Type} (O : RpcOracle V) (pt pp : Nat) :
    ∀ (l : List (Nat × MempoolEntry)) (latest : Nat) (acc : List (Tx × Nat)) lt out,
      mempool_go O pt pp l latest acc = .ok (lt, out) →
      out = acc.reverse ++ l.filterMap (mempoolEmit O pt pp) := by
  intro l
  induction l with
  | nil =>
    intro latest acc lt out h
    simp only [mempool_go] at h
    cases h
    simp
  | cons p rest ih =>
    intro latest acc lt out h
    obtain ⟨txid, te⟩ := p
    by_cases hskip : te.time ≤ pt ∧ te.height ≤ pp
    · simp only [mempool_go, hskip, if_true] at h
      rw [ih _ _ _ _ h]
      simp [mempoolEmit, hskip]
    · simp only [mempool_go, hskip, if_false] at h
      cases hg : O.get_raw_transaction txid with
      | ok tx =>
        simp only [hg] at h
        rw [ih _ _ _ _ h]
        simp [mempoolEmit, hskip, hg]
      | error err =>
        simp only [hg] at h
        by_cases hnf : is_not_found_error err = true
        · rw [if_pos hnf] at h
          rw [ih _ _ _ _ h]
          simp [mempoolEmit, hskip, hg]
        · rw [if_neg hnf] at h
          cases h

theorem mempool_go_ok_latest {V : Type} (O : RpcOracle V) (pt pp : Nat) :
    ∀ (l : List (Nat × MempoolEntry)) (latest : Nat) (acc : List (Tx × Nat)) lt out,
      mempool_go O pt pp l latest acc = .ok (lt, out) →
      lt = l.foldl (fun m p => max m p.2.time) latest := by
  intro l
  induction l with
  | nil =>
    intro latest acc lt out h
    simp only [mempool_go] at h
    cases h
    rfl
  | cons p rest ih =>
    intro latest acc lt out h
    obtain ⟨txid, te⟩ := p
    simp only [mempool_go] at h
    rw [if_lt_eq_max] at h
    by_cases hskip : te.time ≤ pt ∧ te.height ≤ pp
    · rw [if_pos hskip] at h
      rw [ih _ _ _ _ h]
      rfl
    · rw [if_neg hskip] at h
      cases hg : O.get_raw_transaction txid with
      | ok tx =>
        simp only [hg] at h
        rw [ih _ _ _ _ h]
        rfl
      | error err =>
        simp only [hg] at h
        by_cases hnf : is_not_found_error err = true
        · rw [if_pos hnf] at h
          rw [ih _ _ _ _ h]
          rfl
        · rw [if_neg hnf] at h
          cases h

theorem mempool_go_no_hard_error {V : Type} (O : RpcOracle V) (pt pp : Nat) :
    ∀ (l : List (Nat × MempoolEntry)) (latest : Nat) (acc : List (Tx × Nat)),
      (∀ q ∈ l, ¬(q.2.time ≤ pt ∧ q.2.height ≤ pp) →
        ∀ e, O.get_raw_transaction q.1 = .error e → is_not_found_error e = true) →
      ∃ lt out, mempool_go O pt pp l latest acc = .ok (lt, out) := by
  intro l
  induction l with
  | nil =>
    intro latest acc _
    exact ⟨latest, acc.reverse, rfl⟩
  | cons p rest ih =>
    intro latest acc hclean
    obtain ⟨txid, te⟩ := p
    simp only [mempool_go]
    by_cases hskip : te.time ≤ pt ∧ te.height ≤ pp
    · rw [if_pos hskip]
      exact ih _ _ (fun q hq => hclean q (List.mem_cons_of_mem _ hq))
    · rw [if_neg hskip]
      cases hg : O.get_raw_transaction txid with
      | ok tx => exact ih _ _ (fun q hq => hclean q (List.mem_cons_of_mem _ hq))
      | error err =>
        have hnf := hclean (txid, te) (List.mem_cons_self _ _) hskip err hg
        simp only []
        rw [if_pos hnf]
        exact ih _ _ (fun q hq => hclean q (List.mem_cons_of_mem _ hq))

theorem mempool_go_hard_error {V : Type} (O : RpcOracle V) (pt pp : Nat) :
    ∀ (l1 : List (Nat × MempoolEntry)) (p : Nat × MempoolEntry) l2 latest acc err,
      (∀ q ∈ l1, ¬(q.2.time ≤ pt ∧ q.2.height ≤ pp) →
        ∀ e, O.get_raw_transaction q.1 = .error e → is_not_found_error e = true) →
      ¬(p.2.time ≤ pt ∧ p.2.height ≤ pp) →
      O.get_raw_transaction p.1 = .error err →
      is_not_found_error err = false →
      mempool_go O pt pp (l1 ++ p :: l2) latest acc = .error err := by
  intro l1
  induction l1 with
  | nil =>
    intro p l2 latest acc err _ hskip herr hnf
    obtain ⟨txid, te⟩ := p
    simp only [List.nil_append, mempool_go]
    rw [if_neg hskip, herr]
    simp only []
    rw [hnf]
    simp
  | cons q rest ih =>
    intro p l2 latest acc err hclean hskip herr hnf
    obtain ⟨txid, te⟩ := q
    simp only [List.cons_append, mempool_go]
    by_cases hq : te.time ≤ pt ∧ te.height ≤ pp
    · rw [if_pos hq]
      exact ih p l2 _ _ err (fun r hr => hclean r (List.mem_cons_of_mem _ hr)) hskip herr hnf
    · rw [if_neg hq]
      cases hg : O.get_raw_transaction txid with
      | ok tx =>
        exact ih p l2 _ _ err (fun r hr => hclean r (List.mem_cons_of_mem _ hr)) hskip herr hnf
      | error e2 =>
        have h2 := hclean (txid, te) (List.mem_cons_self _ _) hq e2 hg
        simp only []
        rw [if_pos h2]
        exact ih p l2 _ _ err (fun r hr => hclean r (List.mem_cons_of_mem _ hr)) hskip herr hnf

/-- C4: the mempool emission filter.  With the verbose mempool fixed:
(a) on success, the emitted list is exactly the entries that fail the
"both old" test and whose raw transaction fetch succeeds, paired with their
first-seen times; (b) if every passing entry's fetch error is the not-found
code `-5`, the pass succeeds (not-found entries are silently dropped);
(c) the first passing entry whose fetch fails with any other error aborts the
pass with that error. -/
theorem mempool_emission_filter {V : Type} (O : RpcOracle V) (s : Emitter)
    (entries : List (Nat × MempoolEntry))
    (hE : O.get_raw_mempool_verbose = .ok entries) :
    (∀ s2 out, mempool O s = (s2, .ok out) →
      out = entries.filterMap
        (mempoolEmit O s.last_mempool_time (s.last_mempool_tip.getD (s.start_height - 1))))
    ∧ ((∀ q ∈ entries,
          ¬(q.2.time ≤ s.last_mempool_time ∧
            q.2.height ≤ s.last_mempool_tip.getD (s.start_height - 1)) →
          ∀ e, O.get_raw_transaction q.1 = .error e → is_not_found_error e = true) →
        ∃ out, (mempool O s).2 = .ok out)
    ∧ (∀ l1 p l2 err, entries = l1 ++ p :: l2 →
        (∀ q ∈ l1,
          ¬(q.2.time ≤ s.last_mempool_time ∧
            q.2.height ≤ s.last_mempool_tip.getD (s.start_height - 1)) →
          ∀ e, O.get_raw_transaction q.1 = .error e → is_not_found_error e = true) →
        ¬(p.2.time ≤ s.last_mempool_time ∧
          p.2.height ≤ s.last_mempool_tip.getD (s.start_height - 1)) →
        O.get_raw_transaction p.1 = .error err →
        is_not_found_error err = false →
        mempool O s = (s, .error err)) := by
  refine ⟨?_, ?_, ?_⟩
  · intro s2 out h
    unfold mempool at h
    rw [hE] at h
    simp only [] at h
    cases hgo : mempool_go O s.last_mempool_time (s.last_mempool_tip.getD (s.start_height - 1))
        entries s.last_mempool_time [] with
    | error e =>
      rw [hgo] at h
      simp only [] at h
      injection h with h1 h2
      exact Except.noConfusion h2
    | ok r =>
      obtain ⟨lt, outg⟩ := r
      rw [hgo] at h
      simp only [] at h
      injection h with h1 h2
      injection h2 with h3
      subst h3
      have := mempool_go_ok_out O _ _ entries _ [] _ _ hgo
      simpa using this
  · intro hclean
    unfold mempool
    rw [hE]
    simp only []
    obtain ⟨lt, out, hgo⟩ :=
      mempool_go_no_hard_error O s.last_mempool_time
        (s.last_mempool_tip.getD (s.start_height - 1)) entries s.last_mempool_time [] hclean
    rw [hgo]
    exact ⟨out, rfl⟩
  · intro l1 p l2 err hsplit hclean hskip herr hnf
    unfold mempool
    rw [hE, hsplit]
    simp only []
    rw [mempool_go_hard_error O _ _ l1 p l2 _ _ err hclean hskip herr hnf]

/-- Witness oracle for the mempool claims: two fresh entries (one fetchable,
one since evicted with the not-found code) and one already-emitted entry. -/
def Om : RpcOracle Nat where
  get_block_hash := fun _ => .error (.transport 0)
  get_block_info := fun _ => .error (.transport 0)
  get_item := fun _ => .error (.transport 0)
  get_raw_mempool_verbose :=
    .ok [(1, ⟨10, 3⟩), (2, ⟨11, 4⟩), (3, ⟨2, 1⟩)]
  get_raw_transaction := fun t =>
    if t == 1 then .ok ⟨1, [], []⟩
    else if t == 2 then .error (.rpc (-5))
    else .error (.transport 7)

def sm : Emitter := ⟨0, none, none, 5, some 2⟩

/-- Witness for C4: at the concrete oracle, entry 1 is emitted, entry 2 is
silently dropped (code `-5`), entry 3 is filtered as already emitted. -/
theorem mempool_emission_filter_witness :
    [(⟨1, [], []⟩, 10)] =
      ([(1, ⟨10, 3⟩), (2, ⟨11, 4⟩), (3, ⟨2, 1⟩)] : List (Nat × MempoolEntry)).filterMap
        (mempoolEmit Om sm.last_mempool_time (sm.last_mempool_tip.getD (sm.start_height - 1))) :=
  (mempool_emission_filter Om sm [(1, ⟨10, 3⟩), (2, ⟨11, 4⟩), (3, ⟨2, 1⟩)] rfl).1
    { sm with last_mempool_time := 11, last_mempool_tip := none } [(⟨1, [], []⟩, 10)] (by decide)

/-- C8: the mempool pass commits its state only on success.  On any error the
returned state is the input state unchanged; on success `last_mempool_time`
becomes the maximum of its previous value and every observed first-seen time,
`last_mempool_tip` becomes the height of `last_cp`, and every other field is
unchanged. -/
theorem mempool_commit_on_success {V : Type} (O : RpcOracle V) (s : Emitter) :
    (∀ e, (mempool O s).2 = .error e → (mempool O s).1 = s)
    ∧ (∀ entries s2 out, O.get_raw_mempool_verbose = .ok entries →
        mempool O s = (s2, .ok out) →
        s2.last_mempool_time =
          entries.foldl (fun m p => max m p.2.time) s.last_mempool_time
        ∧ s2.last_mempool_tip = s.last_cp.map CheckPoint.height
        ∧ s2.start_height = s.start_height
        ∧ s2.last_cp = s.last_cp
        ∧ s2.last_block = s.last_block) := by
  constructor
  · intro e he
    unfold mempool at he ⊢
    cases hE : O.get_raw_mempool_verbose with
    | error e2 =>
      rfl
    | ok entries =>
      rw [hE] at he
      simp only [] at he
      cases hgo : mempool_go O s.last_mempool_time (s.last_mempool_tip.getD (s.start_height - 1))
          entries s.last_mempool_time [] with
      | error e2 =>
        simp only []
        rw [hgo]
      | ok r =>
        obtain ⟨lt, out⟩ := r
        rw [hgo] at he
        simp only [] at he
        exact Except.noConfusion he
  · intro entries s2 out hE h
    unfold mempool at h
    rw [hE] at h
    simp only [] at h
    cases hgo : mempool_go O s.last_mempool_time (s.last_mempool_tip.getD (s.start_height - 1))
        entries s.last_mempool_time [] with
    | error e =>
      rw [hgo] at h
      simp only [] at h
      injection h with h1 h2
      exact Except.noConfusion h2
    | ok r =>
      obtain ⟨lt, outg⟩ := r
      rw [hgo] at h
      simp only [] at h
      injection h with h1 h2
      injection h2 with h3
      subst h3
      subst h1
      refine ⟨?_, rfl, rfl, rfl, rfl⟩
      exact mempool_go_ok_latest O _ _ entries _ [] _ _ hgo

/-- Witness for C8: the success branch at the concrete oracle, and the
error branch at an oracle whose verbose mempool call fails. -/
def OmBad : RpcOracle Nat where
  get_block_hash := fun _ => .error (.transport 0)
  get_block_info := fun _ => .error (.transport 0)
  get_item := fun _ => .error (.transport 0)
  get_raw_mempool_verbose := .error (.transport 3)
  get_raw_transaction := fun _ => .error (.transport 3)

theorem mempool_commit_on_success_witness :
    (mempool OmBad sm).1 = sm
    ∧ ({ sm with last_mempool_time := 11, last_mempool_tip := none } : Emitter).last_mempool_time =
        ([(1, ⟨10, 3⟩), (2, ⟨11, 4⟩), (3, ⟨2, 1⟩)] : List (Nat × MempoolEntry)).foldl
          (fun m p => max m p.2.time) sm.last_mempool_time :=
  ⟨(mempool_commit_on_success OmBad sm).1 (.transport 3) (by decide),
   ((mempool_commit_on_success Om sm).2 [(1, ⟨10, 3⟩), (2, ⟨11, 4⟩), (3, ⟨2, 1⟩)]
      { sm with last_mempool_time := 11, last_mempool_tip := none }
      [(⟨1, [], []⟩, 10)] rfl (by decide)).1⟩

/-! ### `poll_once` classification (C3) -/

theorem rpc_agreement_walk_skip {V : Type} (O : RpcOracle V) :
    ∀ (l1 : List CheckPoint) (l2 : List CheckPoint),
      (∀ c ∈ l1, ∃ r, O.get_block_info c.hashv = .ok r ∧ r.confirmations < 0) →
      rpc_agreement_walk O (l1 ++ l2) = rpc_agreement_walk O l2 := by
  intro l1
  induction l1 with
  | nil => intro l2 _; rfl
  | cons c rest ih =>
    intro l2 hskip
    obtain ⟨r, hr, hneg⟩ := hskip c (List.mem_cons_self _ _)
    simp only [List.cons_append, rpc_agreement_walk, hr, hneg, if_true]
    exact ih l2 (fun d hd => hskip d (List.mem_cons_of_mem _ hd))

theorem rpc_agreement_walk_exhausted {V : Type} (O : RpcOracle V) :
    ∀ (l : List CheckPoint),
      (∀ c ∈ l, ∃ r, O.get_block_info c.hashv = .ok r ∧ r.confirmations < 0) →
      rpc_agreement_walk O l = .ok .agreementPointNotFound := by
  intro l hskip
  have := rpc_agreement_walk_skip O l [] hskip
  rw [List.append_nil] at this
  rw [this]
  rfl

/-- C3: `poll_once` classifies exactly as the spec's three paths.
Path 1 (cached last block, checkpoint present as the source's assert
demands): absent `next_block_hash` gives `NoMoreBlocks`; a present one whose
info has negative confirmations gives `BlockNotInBestChain`, else
`Block(info)`.  Path 2 (no cached block, no checkpoint): `start_height` is
resolved to a hash, same classification on its info.  Path 3 (no cached
block, checkpoint present): the checkpoints are walked tip-to-genesis and the
first with non-negative confirmations gives `AgreementFound(info, cp)`;
if none survives, `AgreementPointNotFound`. -/
theorem poll_once_classification {V : Type} (O : RpcOracle V) (s : Emitter) :
    (∀ res, s.last_block = some res → s.last_cp.isSome → res.nextblockhash = none →
      poll_once O s = .ok .noMoreBlocks)
    ∧ (∀ res nh r, s.last_block = some res → s.last_cp.isSome →
        res.nextblockhash = some nh → O.get_block_info nh = .ok r →
        poll_once O s = .ok (if r.confirmations < 0 then .blockNotInBestChain else .block r))
    ∧ (∀ h r, s.last_block = none → s.last_cp = none →
        O.get_block_hash s.start_height = .ok h → O.get_block_info h = .ok r →
        poll_once O s = .ok (if r.confirmations < 0 then .blockNotInBestChain else .block r))
    ∧ (∀ cp l1 cp2 l2 r, s.last_block = none → s.last_cp = some cp →
        cp.iterCPs = l1 ++ cp2 :: l2 →
        (∀ c ∈ l1, ∃ r2, O.get_block_info c.hashv = .ok r2 ∧ r2.confirmations < 0) →
        O.get_block_info cp2.hashv = .ok r → ¬ r.confirmations < 0 →
        poll_once O s = .ok (.agreementFound r cp2))
    ∧ (∀ cp, s.last_block = none → s.last_cp = some cp →
        (∀ c ∈ cp.iterCPs, ∃ r2, O.get_block_info c.hashv = .ok r2 ∧ r2.confirmations < 0) →
        poll_once O s = .ok .agreementPointNotFound) := by
  refine ⟨?_, ?_, ?_, ?_, ?_⟩
  · intro res hlb hcp hnh
    unfold poll_once
    rw [hlb]
    simp only [Option.isSome_iff_exists] at hcp
    obtain ⟨cp, hcp⟩ := hcp
    simp only [hcp, hnh]
    rfl
  · intro res nh r hlb hcp hnh hr
    unfold poll_once
    rw [hlb]
    simp only [Option.isSome_iff_exists] at hcp
    obtain ⟨cp, hcp⟩ := hcp
    simp only [hcp, hnh, hr, Option.isNone_some, Bool.false_eq_true, if_false]
    split
    · rfl
    · rfl
  · intro h r hlb hcp hh hr
    unfold poll_once
    rw [hlb, hcp]
    simp only [hh, hr]
    split
    · rfl
    · rfl
  · intro cp l1 cp2 l2 r hlb hcp hsplit hskip hr hpos
    unfold poll_once
    rw [hlb, hcp]
    simp only []
    rw [hsplit, rpc_agreement_walk_skip O l1 (cp2 :: l2) hskip]
    simp [rpc_agreement_walk, hr, hpos]
  · intro cp hlb hcp hall
    unfold poll_once
    rw [hlb, hcp]
    simp only []
    rw [rpc_agreement_walk_exhausted O cp.iterCPs hall]

/-- Witness oracle for the emitter claims: a two-block best chain whose tip
info carries no `next_block_hash`, plus one reorged-out block. -/
def Oe : RpcOracle Nat where
  get_block_hash := fun h => if h == 0 then .ok 40 else .error (.transport 0)
  get_block_info := fun h =>
    if h == 40 then .ok ⟨40, 0, 2, none, some 41⟩
    else if h == 41 then .ok ⟨41, 1, 1, some 40, none⟩
    else if h == 66 then .ok ⟨66, 1, -1, some 40, none⟩
    else .error (.transport 0)
  get_item := fun h => .ok (h + 1000)
  get_raw_mempool_verbose := .ok []
  get_raw_transaction := fun _ => .error (.transport 0)

/-- Witness for C3: all five classification paths at concrete states over the
concrete node `Oe`. -/
theorem poll_once_classification_witness :
    poll_once Oe ⟨0, some ⟨⟨1, 41⟩, [⟨0, 40⟩]⟩, some ⟨41, 1, 1, some 40, none⟩, 0, none⟩ =
      .ok .noMoreBlocks
    ∧ poll_once Oe ⟨0, some ⟨⟨0, 40⟩, []⟩, some ⟨40, 0, 2, none, some 41⟩, 0, none⟩ =
        .ok (if (1 : Int) < 0 then .blockNotInBestChain
          else .block ⟨41, 1, 1, some 40, none⟩)
    ∧ poll_once Oe (Emitter.from_height 0) =
        .ok (if (2 : Int) < 0 then .blockNotInBestChain
          else .block ⟨40, 0, 2, none, some 41⟩)
    ∧ poll_once Oe ⟨0, some ⟨⟨1, 66⟩, [⟨0, 40⟩]⟩, none, 0, none⟩ =
        .ok (.agreementFound ⟨40, 0, 2, none, some 41⟩ ⟨⟨0, 40⟩, []⟩)
    ∧ poll_once Oe ⟨0, some ⟨⟨1, 66⟩, []⟩, none, 0, none⟩ =
        .ok .agreementPointNotFound := by
  refine ⟨?_, ?_, ?_, ?_, ?_⟩
  · exact (poll_once_classification Oe _).1 ⟨41, 1, 1, some 40, none⟩ rfl (by decide) rfl
  · exact (poll_once_classification Oe _).2.1 ⟨40, 0, 2, none, some 41⟩ 41
      ⟨41, 1, 1, some 40, none⟩ rfl (by decide) rfl (by decide)
  · exact (poll_once_classification Oe _).2.2.1 40 ⟨40, 0, 2, none, some 41⟩ rfl rfl
      (by decide) (by decide)
  · exact (poll_once_classification Oe _).2.2.2.1 ⟨⟨1, 66⟩, [⟨0, 40⟩]⟩ [⟨⟨1, 66⟩, [⟨0, 40⟩]⟩]
      ⟨⟨0, 40⟩, []⟩ [] ⟨40, 0, 2, none, some 41⟩ rfl rfl (by decide)
      (by
        intro c hc
        simp only [List.mem_singleton] at hc
        subst hc
        exact ⟨⟨66, 1, -1, some 40, none⟩, rfl, by decide⟩)
      (by decide) (by decide)
  · exact (poll_once_classification Oe _).2.2.2.2 ⟨⟨1, 66⟩, []⟩ rfl rfl
      (by
        intro c hc
        simp only [CheckPoint.iterCPs, CheckPoint.toList, iterList, List.mem_singleton] at hc
        subst hc
        exact ⟨⟨66, 1, -1, some 40, none⟩, rfl, by decide⟩)

/-! ### `poll` emission invariant (C6) -/

theorem poll_once_agreement_inv {V : Type} (O : RpcOracle V) (s : Emitter)
    (r : GetBlockResult) (cp : CheckPoint) :
    poll_once O s = .ok (.agreementFound r cp) → s.last_cp ≠ none := by
  intro h hnone
  unfold poll_once at h
  rw [hnone] at h
  cases hlb : s.last_block with
  | some res =>
    rw [hlb] at h
    simp at h
  | none =>
    rw [hlb] at h
    simp only [] at h
    cases hgh : O.get_block_hash s.start_height with
    | error e =>
      rw [hgh] at h
      exact Except.noConfusion h
    | ok hash =>
      rw [hgh] at h
      simp only [] at h
      cases hinfo : O.get_block_info hash with
      | error e =>
        rw [hinfo] at h
        exact Except.noConfusion h
      | ok res =>
        rw [hinfo] at h
        simp only [] at h
        split at h
        · simp at h
        · simp at h

/-- C6: whenever `poll` (the driver of `next_block` / `next_header`) emits
`some (height, item)`, the updated emitter's `last_cp` tip equals the emitted
block's `(height, hash)` and `last_block` holds that block's info; moreover,
when there was no previous checkpoint and the block carries a
`previous_block_hash`, `last_cp` is the two-element chain seeded with
`(height-1, prev_hash)` and extended with `(height, hash)`. -/
theorem poll_emitted_tip {V : Type} (O : RpcOracle V) :
    ∀ fuel s s2 hh v, poll O fuel s = some (.ok (s2, some (hh, v))) →
      ∃ res cp, s2.last_block = some res ∧ hh = res.height % U32 ∧
        s2.last_cp = some cp ∧ cp.tip = ⟨hh, res.hash⟩ ∧
        (s.last_cp = none → ∀ ph, res.previousblockhash = some ph →
          cp.toList = [⟨hh, res.hash⟩, ⟨hh - 1, ph⟩]) := by
  intro fuel
  induction fuel with
  | zero =>
    intro s s2 hh v hp
    simp only [poll] at hp
    exact Option.noConfusion hp
  | succ fuel ih =>
    intro s s2 hh v hp
    rw [poll] at hp
    cases hpo : poll_once O s with
    | error e =>
      rw [hpo] at hp
      simp at hp
    | ok pr =>
      rw [hpo] at hp
      cases pr with
      | block res =>
        simp only [] at hp
        cases hitem : O.get_item res.hash with
        | error e =>
          rw [hitem] at hp
          simp at hp
        | ok item =>
          rw [hitem] at hp
          simp only [] at hp
          cases hlc : s.last_cp with
          | some cp =>
            rw [hlc] at hp
            simp only [] at hp
            cases hpush : cp.push ⟨res.height % U32, res.hash⟩ with
            | none =>
              rw [hpush] at hp
              simp at hp
            | some cp2 =>
              rw [hpush] at hp
              simp only [Option.some.injEq] at hp
              injection hp with hp1
              injection hp1 with hpA hpB
              injection hpB with hpC
              injection hpC with hhh hvv
              subst hpA
              subst hhh
              refine ⟨res, cp2, rfl, rfl, rfl, ?_, ?_⟩
              · unfold CheckPoint.push at hpush
                split at hpush
                · injection hpush with hp2
                  subst hp2
                  rfl
                · exact Option.noConfusion hpush
              · intro hnone
                exact Option.noConfusion hnone
          | none =>
            rw [hlc] at hp
            cases hprev : res.previousblockhash with
            | none =>
              rw [hprev] at hp
              simp only [Option.map_none'] at hp
              injection hp with hp1
              injection hp1 with hp2
              injection hp2 with hpA hpB
              injection hpB with hpC
              injection hpC with hhh hvv
              subst hpA
              subst hhh
              refine ⟨res, ⟨⟨res.height % U32, res.hash⟩, []⟩, rfl, rfl, rfl, rfl, ?_⟩
              intro _ ph hph
              rw [hprev] at hph
              exact Option.noConfusion hph
            | some ph =>
              rw [hprev] at hp
              simp only [Option.map_some'] at hp
              cases hpush : (CheckPoint.new ⟨res.height % U32 - 1, ph⟩).push
                  ⟨res.height % U32, res.hash⟩ with
              | none =>
                rw [hpush] at hp
                simp at hp
              | some cp2 =>
                rw [hpush] at hp
                simp only [] at hp
                injection hp with hp1
                injection hp1 with hp2
                injection hp2 with hpA hpB
                injection hpB with hpC
                injection hpC with hhh hvv
                subst hpA
                subst hhh
                have hcp2 : cp2 = ⟨⟨res.height % U32, res.hash⟩,
                    [⟨res.height % U32 - 1, ph⟩]⟩ := by
                  unfold CheckPoint.push at hpush
                  split at hpush
                  · injection hpush with hp2
                    exact hp2.symm
                  · exact Option.noConfusion hpush
                subst hcp2
                refine ⟨res, _, rfl, rfl, rfl, rfl, ?_⟩
                intro _ ph2 hph2
                rw [hprev] at hph2
                injection hph2 with hph3
                subst hph3
                rfl
      | noMoreBlocks =>
        simp only [] at hp
        injection hp with hp1
        injection hp1 with hp2
        injection hp2 with hpA hpB
        exact Option.noConfusion hpB
      | blockNotInBestChain =>
        simp only [] at hp
        exact ih { s with last_block := none } s2 hh v hp
      | agreementFound res2 cp2 =>
        simp only [] at hp
        have hne := poll_once_agreement_inv O s res2 cp2 hpo
        obtain ⟨res, cp3, a1, a2, a3, a4, a5⟩ := ih _ _ _ _ hp
        exact ⟨res, cp3, a1, a2, a3, a4, fun hnone => absurd hnone hne⟩
      | agreementPointNotFound =>
        cases hlc : s.last_cp with
        | some lcp =>
          rw [hlc] at hp
          simp only [] at hp
          obtain ⟨res, cp3, a1, a2, a3, a4, a5⟩ := ih _ _ _ _ hp
          refine ⟨res, cp3, a1, a2, a3, a4, ?_⟩
          intro hnone
          exact Option.noConfusion hnone
        | none =>
          rw [hlc] at hp
          simp only [] at hp
          exact ih { s with last_cp := none, last_block := none } s2 hh v hp

def e6 : Emitter := ⟨0, some ⟨⟨0, 40⟩, []⟩, some ⟨40, 0, 2, none, some 41⟩, 0, none⟩

/-- Witness for C6: a concrete first emission over `Oe` from a fresh
`from_height 0` emitter. -/
theorem poll_emitted_tip_witness :
    ∃ res cp, e6.last_block = some res ∧ (0 : Nat) = res.height % U32 ∧
      e6.last_cp = some cp ∧ cp.tip = ⟨0, res.hash⟩ ∧
      ((Emitter.from_height 0).last_cp = none → ∀ ph, res.previousblockhash = some ph →
        cp.toList = [⟨0, res.hash⟩, ⟨0 - 1, ph⟩]) :=
  poll_emitted_tip Oe 1 (Emitter.from_height 0) e6 0 1040 (by decide)

/-! ### Caught-up idempotence of `next_block` (C9) -/

/-- Node well-formedness: block info is keyed by the queried hash. -/
def OracleWF {V : Type} (O : RpcOracle V) : Prop :=
  ∀ h r, O.get_block_info h = .ok r → r.hash = h

/-- The reachable-state invariant of the emitter: a cached `last_block` is
the info of the current `last_cp` tip, was obtained from the node, and is in
the best chain. -/
def EmitterInv {V : Type} (O : RpcOracle V) (s : Emitter) : Prop :=
  ∀ res, s.last_block = some res →
    (∃ cp, s.last_cp = some cp ∧ cp.tip.hash = res.hash) ∧
    O.get_block_info res.hash = .ok res ∧ ¬ res.confirmations < 0

/-- The "caught up" state: no cached block, and the checkpoint tip's info is
in the best chain with no successor block. -/
def CaughtUp {V : Type} (O : RpcOracle V) (s : Emitter) : Prop :=
  s.last_block = none ∧
  ∃ cp res, s.last_cp = some cp ∧ cp.tip.hash = res.hash ∧
    O.get_block_info res.hash = .ok res ∧ ¬ res.confirmations < 0 ∧
    res.nextblockhash = none

theorem rpc_agreement_walk_shape {V : Type} (O : RpcOracle V) :
    ∀ l r, rpc_agreement_walk O l = .ok r →
      r = .agreementPointNotFound ∨ ∃ res cp, r = .agreementFound res cp := by
  intro l
  induction l with
  | nil =>
    intro r h
    injection h with h1
    exact Or.inl h1.symm
  | cons c rest ih =>
    intro r h
    unfold rpc_agreement_walk at h
    cases hinfo : O.get_block_info c.hashv with
    | error e =>
      rw [hinfo] at h
      exact Except.noConfusion h
    | ok res =>
      rw [hinfo] at h
      simp only [] at h
      split at h
      · exact ih r h
      · injection h with h1
        exact Or.inr ⟨res, c, h1.symm⟩

theorem rpc_agreement_walk_found_inv {V : Type} (O : RpcOracle V) :
    ∀ l res cp, rpc_agreement_walk O l = .ok (.agreementFound res cp) →
      O.get_block_info cp.hashv = .ok res ∧ ¬ res.confirmations < 0 := by
  intro l
  induction l with
  | nil =>
    intro res cp h
    injection h with h1
    exact PollResponse.noConfusion h1
  | cons c rest ih =>
    intro res cp h
    unfold rpc_agreement_walk at h
    cases hinfo : O.get_block_info c.hashv with
    | error e =>
      rw [hinfo] at h
      exact Except.noConfusion h
    | ok r2 =>
      rw [hinfo] at h
      simp only [] at h
      split at h
      · exact ih res cp h
      · injection h with h1
        injection h1 with h2 h3
        subst h2
        subst h3
        exact ⟨hinfo, by assumption⟩

theorem poll_once_nmb_inv {V : Type} (O : RpcOracle V) (s : Emitter) :
    poll_once O s = .ok .noMoreBlocks →
    ∃ res, s.last_block = some res ∧ res.nextblockhash = none := by
  intro h
  unfold poll_once at h
  cases hlb : s.last_block with
  | some res =>
    rw [hlb] at h
    simp only [] at h
    split at h
    · exact Except.noConfusion h
    · cases hnbh : res.nextblockhash with
      | none => exact ⟨res, rfl, hnbh⟩
      | some nh =>
        rw [hnbh] at h
        simp only [] at h
        cases hinfo : O.get_block_info nh with
        | error e =>
          rw [hinfo] at h
          exact Except.noConfusion h
        | ok r =>
          rw [hinfo] at h
          simp only [] at h
          split at h
          · injection h with h1
            exact PollResponse.noConfusion h1
          · injection h with h1
            exact PollResponse.noConfusion h1
  | none =>
    rw [hlb] at h
    simp only [] at h
    cases hlc : s.last_cp with
    | none =>
      rw [hlc] at h
      simp only [] at h
      cases hgh : O.get_block_hash s.start_height with
      | error e =>
        rw [hgh] at h
        exact Except.noConfusion h
      | ok hash =>
        rw [hgh] at h
        simp only [] at h
        cases hinfo : O.get_block_info hash with
        | error e =>
          rw [hinfo] at h
          exact Except.noConfusion h
        | ok r =>
          rw [hinfo] at h
          simp only [] at h
          split at h
          · injection h with h1
            exact PollResponse.noConfusion h1
          · injection h with h1
            exact PollResponse.noConfusion h1
    | some cp =>
      rw [hlc] at h
      simp only [] at h
      cases hw : rpc_agreement_walk O cp.iterCPs with
      | error e =>
        rw [hw] at h
        exact Except.noConfusion h
      | ok r =>
        rw [hw] at h
        simp only [] at h
        injection h with h1
        subst h1
        rcases rpc_agreement_walk_shape O cp.iterCPs _ hw with h2 | ⟨res, cp2, h2⟩
        · exact PollResponse.noConfusion h2
        · exact PollResponse.noConfusion h2

theorem poll_once_agreement_found_inv {V : Type} (O : RpcOracle V) (s : Emitter)
    (res : GetBlockResult) (cp : CheckPoint) :
    poll_once O s = .ok (.agreementFound res cp) →
      O.get_block_info cp.hashv = .ok res ∧ ¬ res.confirmations < 0 := by
  intro h
  unfold poll_once at h
  cases hlb : s.last_block with
  | some r0 =>
    rw [hlb] at h
    simp only [] at h
    split at h
    · exact Except.noConfusion h
    · cases hnbh : r0.nextblockhash with
      | none =>
        rw [hnbh] at h
        simp only [] at h
        injection h with h1
        exact PollResponse.noConfusion h1
      | some nh =>
        rw [hnbh] at h
        simp only [] at h
        cases hinfo : O.get_block_info nh with
        | error e =>
          rw [hinfo] at h
          exact Except.noConfusion h
        | ok r =>
          rw [hinfo] at h
          simp only [] at h
          split at h
          · injection h with h1
            exact PollResponse.noConfusion h1
          · injection h with h1
            exact PollResponse.noConfusion h1
  | none =>
    rw [hlb] at h
    simp only [] at h
    cases hlc : s.last_cp with
    | none =>
      rw [hlc] at h
      simp only [] at h
      cases hgh : O.get_block_hash s.start_height with
      | error e =>
        rw [hgh] at h
        exact Except.noConfusion h
      | ok hash =>
        rw [hgh] at h
        simp only [] at h
        cases hinfo : O.get_block_info hash with
        | error e =>
          rw [hinfo] at h
          exact Except.noConfusion h
        | ok r =>
          rw [hinfo] at h
          simp only [] at h
          split at h
          · injection h with h1
            exact PollResponse.noConfusion h1
          · injection h with h1
            exact PollResponse.noConfusion h1
    | some cp0 =>
      rw [hlc] at h
      simp only [] at h
      cases hw : rpc_agreement_walk O cp0.iterCPs with
      | error e =>
        rw [hw] at h
        exact Except.noConfusion h
      | ok r =>
        rw [hw] at h
        simp only [] at h
        injection h with h1
        subst h1
        exact rpc_agreement_walk_found_inv O cp0.iterCPs res cp hw

theorem clamp_idem (a : Nat) (x : Option Nat) :
    (x.map (fun h => if a < h then a else h)).map (fun h => if a < h then a else h) =
      x.map (fun h => if a < h then a else h) := by
  cases x with
  | none => rfl
  | some h =>
    simp only [Option.map_some']
    by_cases hc : a < h
    · simp [hc]
    · simp [hc]

theorem poll_none_caught_up {V : Type} (O : RpcOracle V) (hwf : OracleWF O) :
    ∀ fuel s s2, EmitterInv O s → poll O fuel s = some (.ok (s2, none)) →
      CaughtUp O s2 := by
  intro fuel
  induction fuel with
  | zero =>
    intro s s2 _ hp
    simp only [poll] at hp
    exact Option.noConfusion hp
  | succ fuel ih =>
    intro s s2 hinv hp
    rw [poll] at hp
    cases hpo : poll_once O s with
    | error e =>
      rw [hpo] at hp
      simp at hp
    | ok pr =>
      rw [hpo] at hp
      cases pr with
      | block res =>
        simp only [] at hp
        cases hitem : O.get_item res.hash with
        | error e =>
          rw [hitem] at hp
          simp at hp
        | ok item =>
          rw [hitem] at hp
          simp only [] at hp
          cases hlc : s.last_cp with
          | some cp =>
            rw [hlc] at hp
            simp only [] at hp
            cases hpush : cp.push ⟨res.height % U32, res.hash⟩ with
            | none =>
              rw [hpush] at hp
              simp at hp
            | some cp2 =>
              rw [hpush] at hp
              simp only [] at hp
              injection hp with hp1
              injection hp1 with hp2
              injection hp2 with hpA hpB
              exact Option.noConfusion hpB
          | none =>
            rw [hlc] at hp
            cases hprev : res.previousblockhash with
            | none =>
              rw [hprev] at hp
              simp only [Option.map_none'] at hp
              injection hp with hp1
              injection hp1 with hp2
              injection hp2 with hpA hpB
              exact Option.noConfusion hpB
            | some ph =>
              rw [hprev] at hp
              simp only [Option.map_some'] at hp
              cases hpush : (CheckPoint.new ⟨res.height % U32 - 1, ph⟩).push
                  ⟨res.height % U32, res.hash⟩ with
              | none =>
                rw [hpush] at hp
                simp at hp
              | some cp2 =>
                rw [hpush] at hp
                simp only [] at hp
                injection hp with hp1
                injection hp1 with hp2
                injection hp2 with hpA hpB
                exact Option.noConfusion hpB
      | noMoreBlocks =>
        simp only [] at hp
        injection hp with hp1
        injection hp1 with hp2
        injection hp2 with hpA hpB
        obtain ⟨res, hlb, hnbh⟩ := poll_once_nmb_inv O s hpo
        obtain ⟨⟨cp, hcp, hhash⟩, hinfo, hconf⟩ := hinv res hlb
        subst hpA
        exact ⟨rfl, cp, res, hcp, hhash, hinfo, hconf, hnbh⟩
      | blockNotInBestChain =>
        simp only [] at hp
        exact ih { s with last_block := none } s2
          (fun r hr => Option.noConfusion hr) hp
      | agreementFound res cp =>
        simp only [] at hp
        obtain ⟨hinfo_c, hconf⟩ := poll_once_agreement_found_inv O s res cp hpo
        have hres : res.hash = cp.hashv := hwf _ _ hinfo_c
        refine ih _ s2 ?_ hp
        intro r hr
        injection hr with hr1
        subst hr1
        refine ⟨⟨cp, rfl, hres.symm⟩, ?_, hconf⟩
        rw [hres]
        exact hinfo_c
      | agreementPointNotFound =>
        cases hlc : s.last_cp with
        | some lcp =>
          rw [hlc] at hp
          simp only [] at hp
          exact ih _ s2 (fun r hr => Option.noConfusion hr) hp
        | none =>
          rw [hlc] at hp
          simp only [] at hp
          exact ih _ s2 (fun r hr => Option.noConfusion hr) hp

theorem poll_caught_up_step {V : Type} (O : RpcOracle V) (hwf : OracleWF O) :
    ∀ fuel (s : Emitter) cp res,
      s.last_block = none → s.last_cp = some cp →
      cp.tip.hash = res.hash →
      O.get_block_info res.hash = .ok res → ¬ res.confirmations < 0 →
      res.nextblockhash = none →
      poll O (fuel + 2) s =
        some (.ok (⟨s.start_height, some cp, none, s.last_mempool_time,
          s.last_mempool_tip.map
            (fun h => if res.height % U32 < h then res.height % U32 else h)⟩, none)) := by
  intro fuel s cp res hlb hcp hhash hinfo hconf hnbh
  have hhv : O.get_block_info cp.hashv = .ok res := by
    unfold CheckPoint.hashv
    rw [hhash]
    exact hinfo
  have h1 : poll_once O s = .ok (.agreementFound res cp) := by
    unfold poll_once
    rw [hlb, hcp]
    simp only []
    have hiter : cp.iterCPs = cp :: iterList cp.tail := rfl
    rw [hiter]
    unfold rpc_agreement_walk
    rw [hhv]
    simp only []
    rw [if_neg hconf]
  show poll O (fuel + 1 + 1) s = _
  rw [poll, h1]
  simp only []
  rw [poll]
  have h2 : poll_once O
      ({ s with
          last_cp := some cp
          last_mempool_tip :=
            s.last_mempool_tip.map
              (fun h => if res.height % U32 < h then res.height % U32 else h)
          last_block := some res } : Emitter) = .ok .noMoreBlocks := by
    unfold poll_once
    simp [hnbh]
  rw [h2]

/-- C9: with the node's responses held fixed, once `next_block` (the `poll`
driver) returns `None`, every later call returns `None` again and leaves the
emitter's chain view (`last_cp`), `start_height`, `last_mempool_time` and
cached block unchanged: the post-state of the second call is a strict
fixpoint of `poll`. -/
theorem next_block_caught_up_idempotent {V : Type} (O : RpcOracle V) (s : Emitter)
    (hwf : OracleWF O) (hinv : EmitterInv O s) :
    ∀ fuel s2, poll O fuel s = some (.ok (s2, none)) →
      ∀ fuel2, ∃ s3, poll O (fuel2 + 2) s2 = some (.ok (s3, none)) ∧
        s3.last_cp = s2.last_cp ∧ s3.last_block = none ∧
        s3.start_height = s2.start_height ∧
        s3.last_mempool_time = s2.last_mempool_time ∧
        poll O (fuel2 + 2) s3 = some (.ok (s3, none)) := by
  intro fuel s2 hp fuel2
  obtain ⟨hlb2, cp, res, hcp2, hhash, hinfo, hconf, hnbh⟩ :=
    poll_none_caught_up O hwf fuel s s2 hinv hp
  refine ⟨⟨s2.start_height, some cp, none, s2.last_mempool_time,
    s2.last_mempool_tip.map
      (fun h => if res.height % U32 < h then res.height % U32 else h)⟩,
    poll_caught_up_step O hwf fuel2 s2 cp res hlb2 hcp2 hhash hinfo hconf hnbh,
    hcp2.symm, rfl, rfl, rfl, ?_⟩
  have := poll_caught_up_step O hwf fuel2
    (⟨s2.start_height, some cp, none, s2.last_mempool_time,
      s2.last_mempool_tip.map
        (fun h => if res.height % U32 < h then res.height % U32 else h)⟩ : Emitter)
    cp res rfl rfl hhash hinfo hconf hnbh
  rw [this]
  simp only [clamp_idem]

def s9 : Emitter := ⟨0, some ⟨⟨1, 41⟩, [⟨0, 40⟩]⟩, some ⟨41, 1, 1, some 40, none⟩, 0, none⟩

/-- Witness for C9: a caught-up emitter over `Oe`; the first call returns
`None`, and the theorem yields the fixpoint of all later calls. -/
theorem next_block_caught_up_idempotent_witness :
    ∃ s3, poll Oe (0 + 2) { s9 with last_block := none } = some (.ok (s3, none)) ∧
      s3.last_cp = ({ s9 with last_block := none } : Emitter).last_cp ∧
      s3.last_block = none ∧
      s3.start_height = ({ s9 with last_block := none } : Emitter).start_height ∧
      s3.last_mempool_time = ({ s9 with last_block := none } : Emitter).last_mempool_time ∧
      poll Oe (0 + 2) s3 = some (.ok (s3, none)) :=
  next_block_caught_up_idempotent Oe s9
    (by
      intro h r hr
      unfold Oe at hr
      simp only [] at hr
      by_cases h40 : h == 40
      · simp only [h40, if_true] at hr
        injection hr with hr1
        subst hr1
        have hh : h = 40 := by simpa using h40
        exact hh.symm
      · simp only [h40, if_false] at hr
        by_cases h41 : h == 41
        · simp only [h41, if_true] at hr
          injection hr with hr1
          subst hr1
          have hh : h = 41 := by simpa using h41
          exact hh.symm
        · simp only [h41, if_false] at hr
          by_cases h66 : h == 66
          · simp only [h66, if_true] at hr
            injection hr with hr1
            subst hr1
            have hh : h = 66 := by simpa using h66
            exact hh.symm
          · simp only [h66, if_false] at hr
            exact Except.noConfusion hr)
    (by
      intro res hres
      injection hres with hres1
      subst hres1
      exact ⟨⟨⟨⟨1, 41⟩, [⟨0, 40⟩]⟩, rfl, rfl⟩, rfl, by decide⟩)
    1 { s9 with last_block := none } (by decide) 0

/-! ### Checkpoint insertion lemmas, used by `chain_update` (C1) -/

theorem insertDesc_ne_nil : ∀ (l : List BlockId) (b : BlockId), insertDesc l b ≠ [] := by
  intro l b
  cases l with
  | nil => simp [insertDesc]
  | cons c rest =>
    unfold insertDesc
    split
    · simp
    · split
      · simp
      · simp

theorem insertBlock_toList (cp : CheckPoint) (b : BlockId) :
    (cp.insertBlock b).toList = insertDesc cp.toList b := by
  unfold CheckPoint.insertBlock
  cases h : insertDesc cp.toList b with
  | nil => exact absurd h (insertDesc_ne_nil _ _)
  | cons x xs => rfl

theorem insertDesc_find_self :
    ∀ (l : List BlockId) (b : BlockId),
      (insertDesc l b).find? (fun c => c.height == b.height) = some b := by
  intro l
  induction l with
  | nil =>
    intro b
    simp [insertDesc, List.find?]
  | cons c rest ih =>
    intro b
    unfold insertDesc
    split
    · simp [List.find?]
    · split
      · simp [List.find?]
      · rename_i hlt heq
        have hne : (c.height == b.height) = false := by
          simpa using heq
        rw [List.find?]
        rw [hne]
        exact ih b

theorem insertDesc_find_other :
    ∀ (l : List BlockId) (b : BlockId) (h : Nat), h ≠ b.height →
      (insertDesc l b).find? (fun c => c.height == h) =
        l.find? (fun c => c.height == h) := by
  intro l
  induction l with
  | nil =>
    intro b h hne
    unfold insertDesc
    rw [List.find?_cons_of_neg _ (by simp; omega)]
  | cons c rest ih =>
    intro b h hne
    unfold insertDesc
    by_cases h1 : c.height < b.height
    · rw [if_pos h1]
      rw [List.find?_cons_of_neg _ (by simp; omega)]
    · rw [if_neg h1]
      by_cases h2 : (c.height == b.height) = true
      · rw [if_pos h2]
        have hch : c.height = b.height := by simpa using h2
        rw [List.find?_cons_of_neg _ (by simp; omega),
          List.find?_cons_of_neg _ (by simp; omega)]
      · rw [if_neg h2]
        by_cases h3 : (c.height == h) = true
        · rw [@List.find?_cons_of_pos BlockId (fun d => d.height == h) c (insertDesc rest b) h3,
            @List.find?_cons_of_pos BlockId (fun d => d.height == h) c rest h3]
        · rw [@List.find?_cons_of_neg BlockId (fun d => d.height == h) c (insertDesc rest b) h3,
            @List.find?_cons_of_neg BlockId (fun d => d.height == h) c rest h3]
          exact ih b h hne

theorem checkpoint_get_self (cp : CheckPoint) : cp.get cp.height = some cp.tip := by
  unfold CheckPoint.get CheckPoint.toList CheckPoint.height
  rw [List.find?_cons_of_pos _ (by simp)]

theorem insertBlock_get_self (cp : CheckPoint) (b : BlockId) :
    (cp.insertBlock b).get b.height = some b := by
  unfold CheckPoint.get
  rw [insertBlock_toList]
  exact insertDesc_find_self cp.toList b

theorem insertBlock_get_other (cp : CheckPoint) (b : BlockId) (h : Nat) (hne : h ≠ b.height) :
    (cp.insertBlock b).get h = cp.get h := by
  unfold CheckPoint.get
  rw [insertBlock_toList]
  exact insertDesc_find_other cp.toList b h hne

theorem insertBlock_height (cp : CheckPoint) (b : BlockId) (hlt : b.height < cp.height) :
    (cp.insertBlock b).height = cp.height := by
  have hlt2 : b.height < cp.tip.height := hlt
  unfold CheckPoint.insertBlock CheckPoint.toList
  have hne2 : ¬ (cp.tip.height == b.height) = true := by
    simp
    omega
  have h1 : insertDesc (cp.tip :: cp.tail) b = cp.tip :: insertDesc cp.tail b := by
    show (if cp.tip.height < b.height then b :: cp.tip :: cp.tail
      else if (cp.tip.height == b.height) = true then b :: cp.tail
      else cp.tip :: insertDesc cp.tail b) = cp.tip :: insertDesc cp.tail b
    rw [if_neg (by omega : ¬ cp.tip.height < b.height), if_neg hne2]
  rw [h1]
  rfl

/-! ### `chain_update` lemmas (C1) -/

theorem chain_update_cons (tip : CheckPoint) (latest : BMap)
    (a : ConfirmationTimeHeightAnchor × Nat) (rest : List (ConfirmationTimeHeightAnchor × Nat)) :
    chain_update tip latest (a :: rest) =
      chain_update
        (if (tip.get a.1.anchor_block.height).isNone ∧ a.1.anchor_block.height ≤ tip.height
         then tip.insertBlock ⟨a.1.anchor_block.height,
           (bmGet latest a.1.anchor_block.height).getD a.1.anchor_block.hash⟩
         else tip)
        latest rest := rfl

theorem cu_step_insert_lt (tip : CheckPoint) (hA : Nat)
    (hnone : (tip.get hA).isNone = true) (hle : hA ≤ tip.height) : hA < tip.height := by
  rcases Nat.lt_or_ge hA tip.height with hlt | hge
  · exact hlt
  · exfalso
    have heq : hA = tip.height := Nat.le_antisymm hle hge
    rw [heq, checkpoint_get_self] at hnone
    simp at hnone

theorem cu_step_height (tip : CheckPoint) (latest : BMap)
    (a : ConfirmationTimeHeightAnchor × Nat) :
    (if (tip.get a.1.anchor_block.height).isNone ∧ a.1.anchor_block.height ≤ tip.height
     then tip.insertBlock ⟨a.1.anchor_block.height,
       (bmGet latest a.1.anchor_block.height).getD a.1.anchor_block.hash⟩
     else tip).height = tip.height := by
  by_cases hc : (tip.get a.1.anchor_block.height).isNone = true ∧
      a.1.anchor_block.height ≤ tip.height
  · rw [if_pos hc]
    exact insertBlock_height tip _ (cu_step_insert_lt tip _ hc.1 hc.2)
  · rw [if_neg hc]

theorem chain_update_height :
    ∀ (anchors : List (ConfirmationTimeHeightAnchor × Nat)) (tip : CheckPoint) (latest : BMap),
      (chain_update tip latest anchors).height = tip.height := by
  intro anchors
  induction anchors with
  | nil => intro tip latest; rfl
  | cons a rest ih =>
    intro tip latest
    rw [chain_update_cons, ih, cu_step_height]

theorem chain_update_get_stable :
    ∀ (anchors : List (ConfirmationTimeHeightAnchor × Nat)) (tip : CheckPoint) (latest : BMap)
      (h : Nat) (b : BlockId), tip.get h = some b →
      (chain_update tip latest anchors).get h = some b := by
  intro anchors
  induction anchors with
  | nil => intro tip latest h b hb; exact hb
  | cons a rest ih =>
    intro tip latest h b hb
    rw [chain_update_cons]
    by_cases hc : (tip.get a.1.anchor_block.height).isNone = true ∧
        a.1.anchor_block.height ≤ tip.height
    · rw [if_pos hc]
      apply ih
      have hne : h ≠ a.1.anchor_block.height := by
        intro heq
        rw [← heq, hb] at hc
        simp at hc
      rw [insertBlock_get_other tip ⟨a.1.anchor_block.height, (bmGet latest a.1.anchor_block.height).getD a.1.anchor_block.hash⟩ h hne]
      exact hb
    · rw [if_neg hc]
      exact ih tip latest h b hb

theorem chain_update_covers :
    ∀ (anchors : List (ConfirmationTimeHeightAnchor × Nat)) (tip : CheckPoint) (latest : BMap)
      (p : ConfirmationTimeHeightAnchor × Nat), p ∈ anchors →
      p.1.anchor_block.height ≤ tip.height →
      ∃ b, (chain_update tip latest anchors).get p.1.anchor_block.height = some b := by
  intro anchors
  induction anchors with
  | nil => intro tip latest p hp; exact absurd hp (List.not_mem_nil p)
  | cons a rest ih =>
    intro tip latest p hp hle
    rw [chain_update_cons]
    rcases List.mem_cons.mp hp with hpa | hpr
    · subst hpa
      by_cases hc : (tip.get p.1.anchor_block.height).isNone = true ∧
          p.1.anchor_block.height ≤ tip.height
      · rw [if_pos hc]
        exact ⟨_, chain_update_get_stable rest _ latest _ _ (insertBlock_get_self tip _)⟩
      · rw [if_neg hc]
        have hsome : ¬ (tip.get p.1.anchor_block.height).isNone = true := by
          intro hnone
          exact hc ⟨hnone, hle⟩
        cases hb : tip.get p.1.anchor_block.height with
        | none => rw [hb] at hsome; simp at hsome
        | some b => exact ⟨b, chain_update_get_stable rest _ latest _ _ hb⟩
    · by_cases hc : (tip.get a.1.anchor_block.height).isNone = true ∧
          a.1.anchor_block.height ≤ tip.height
      · rw [if_pos hc]
        apply ih _ _ p hpr
        rw [insertBlock_height tip ⟨a.1.anchor_block.height, (bmGet latest a.1.anchor_block.height).getD a.1.anchor_block.hash⟩ (cu_step_insert_lt tip _ hc.1 hc.2)]
        exact hle
      · rw [if_neg hc]
        exact ih tip latest p hpr hle

theorem chain_update_hash_rule :
    ∀ (anchors : List (ConfirmationTimeHeightAnchor × Nat)) (tip : CheckPoint) (latest : BMap)
      (h : Nat), tip.get h = none → h ≤ tip.height →
      (∃ p, p ∈ anchors ∧ p.1.anchor_block.height = h) →
      ∃ b, (chain_update tip latest anchors).get h = some b ∧ b.height = h ∧
        (∀ hv, bmGet latest h = some hv → b.hash = hv) ∧
        (bmGet latest h = none →
          ∃ p, p ∈ anchors ∧ p.1.anchor_block.height = h ∧ b.hash = p.1.anchor_block.hash) := by
  intro anchors
  induction anchors with
  | nil =>
    intro tip latest h _ _ hex
    obtain ⟨p, hp, _⟩ := hex
    exact absurd hp (List.not_mem_nil p)
  | cons a rest ih =>
    intro tip latest h hnone hle hex
    rw [chain_update_cons]
    by_cases hah : a.1.anchor_block.height = h
    · rw [hah, hnone]
      have hc : ((none : Option BlockId).isNone = true) ∧ h ≤ tip.height := ⟨rfl, hle⟩
      rw [if_pos hc]
      refine ⟨⟨h, (bmGet latest h).getD a.1.anchor_block.hash⟩,
        chain_update_get_stable rest _ latest _ _ (insertBlock_get_self tip _), rfl, ?_, ?_⟩
      · intro hv hhv
        rw [hhv]
        rfl
      · intro hlat
        rw [hlat]
        exact ⟨a, List.mem_cons_self _ _, hah, rfl⟩
    · have hex2 : ∃ p, p ∈ rest ∧ p.1.anchor_block.height = h := by
        obtain ⟨p, hp, hph⟩ := hex
        rcases List.mem_cons.mp hp with hpa | hpr
        · subst hpa
          exact absurd hph hah
        · exact ⟨p, hpr, hph⟩
      by_cases hc : (tip.get a.1.anchor_block.height).isNone = true ∧
          a.1.anchor_block.height ≤ tip.height
      · rw [if_pos hc]
        have hnone2 : (tip.insertBlock ⟨a.1.anchor_block.height,
            (bmGet latest a.1.anchor_block.height).getD a.1.anchor_block.hash⟩).get h = none := by
          rw [insertBlock_get_other tip ⟨a.1.anchor_block.height, (bmGet latest a.1.anchor_block.height).getD a.1.anchor_block.hash⟩ h (fun heq => hah heq.symm)]
          exact hnone
        have hle2 : h ≤ (tip.insertBlock ⟨a.1.anchor_block.height,
            (bmGet latest a.1.anchor_block.height).getD a.1.anchor_block.hash⟩).height := by
          rw [insertBlock_height tip ⟨a.1.anchor_block.height, (bmGet latest a.1.anchor_block.height).getD a.1.anchor_block.hash⟩ (cu_step_insert_lt tip _ hc.1 hc.2)]
          exact hle
        obtain ⟨b, hb1, hb2, hb3, hb4⟩ := ih _ latest h hnone2 hle2 hex2
        refine ⟨b, hb1, hb2, hb3, ?_⟩
        intro hlat
        obtain ⟨p, hp, hph, hphash⟩ := hb4 hlat
        exact ⟨p, List.mem_cons_of_mem _ hp, hph, hphash⟩
      · rw [if_neg hc]
        obtain ⟨b, hb1, hb2, hb3, hb4⟩ := ih tip latest h hnone hle hex2
        refine ⟨b, hb1, hb2, hb3, ?_⟩
        intro hlat
        obtain ⟨p, hp, hph, hphash⟩ := hb4 hlat
        exact ⟨p, List.mem_cons_of_mem _ hp, hph, hphash⟩

theorem insert_txout_anchors (g : TxGraph) (op : OutPoint) (txo : TxOut) :
    (g.insert_txout op txo).anchors = g.anchors := by
  unfold TxGraph.insert_txout
  split
  · rfl
  · rfl

theorem prevTxoutInputs_anchors (O : ElectrumOracle) :
    ∀ (l : List OutPoint) (g g2 : TxGraph), prevTxoutInputs O g l = .ok g2 →
      g2.anchors = g.anchors := by
  intro l
  induction l with
  | nil =>
    intro g g2 h
    injection h with h1
    rw [← h1]
  | cons vin rest ih =>
    intro g g2 h
    unfold prevTxoutInputs at h
    cases hf : fetch_tx O vin.txid with
    | error e =>
      rw [hf] at h
      exact Except.noConfusion h
    | ok prev_tx =>
      rw [hf] at h
      simp only [] at h
      cases hgo : prev_tx.output.get? vin.vout with
      | none =>
        rw [hgo] at h
        exact Except.noConfusion h
      | some txout =>
        rw [hgo] at h
        rw [ih _ _ h, insert_txout_anchors]

theorem prevTxoutTxs_anchors (O : ElectrumOracle) :
    ∀ (l : List Tx) (g g2 : TxGraph), prevTxoutTxs O g l = .ok g2 →
      g2.anchors = g.anchors := by
  intro l
  induction l with
  | nil =>
    intro g g2 h
    injection h with h1
    rw [← h1]
  | cons tx rest ih =>
    intro g g2 h
    unfold prevTxoutTxs at h
    cases hi : prevTxoutInputs O g tx.input with
    | error e =>
      rw [hi] at h
      exact Except.noConfusion h
    | ok g1 =>
      rw [hi] at h
      rw [ih _ _ h, prevTxoutInputs_anchors O _ _ _ hi]

theorem fetch_prev_txout_anchors (O : ElectrumOracle) (g g2 : TxGraph)
    (h : fetch_prev_txout O g = .ok g2) : g2.anchors = g.anchors :=
  prevTxoutTxs_anchors O g.txs g g2 h

/-- C1 (amended): for every result of `full_scan` or `sync`, every anchor in
the returned graph update whose height does not exceed the returned chain
update's tip height has a corresponding checkpoint at the same height; and
when `chain_update` inserts such a checkpoint, its hash is taken from
`latest_blocks` at that height if present, otherwise from the hash of an
anchor at that height.  (The claim's unconditional version is refuted by
`full_scan_anchor_without_checkpoint`: anchors above the new tip's height get
no checkpoint, mirroring the source guard `height <= tip.height()`.) -/
theorem full_scan_chain_update_covers :
    (∀ O req sg bs fp r, full_scan O req sg bs fp = .ok r →
      ∀ p, p ∈ r.graph_update.anchors →
        p.1.anchor_block.height ≤ r.chain_update.height →
        (r.chain_update.get p.1.anchor_block.height).isSome = true)
    ∧ (∀ O req bs fp r, syncScan O req bs fp = .ok r →
        ∀ p, p ∈ r.graph_update.anchors →
          p.1.anchor_block.height ≤ r.chain_update.height →
          (r.chain_update.get p.1.anchor_block.height).isSome = true)
    ∧ (∀ tip latest anchors h, tip.get h = none → h ≤ tip.height →
        (∃ p, p ∈ anchors ∧ p.1.anchor_block.height = h) →
        ∃ b, (chain_update tip latest anchors).get h = some b ∧ b.height = h ∧
          (∀ hv, bmGet latest h = some hv → b.hash = hv) ∧
          (bmGet latest h = none →
            ∃ p, p ∈ anchors ∧ p.1.anchor_block.height = h ∧
              b.hash = p.1.anchor_block.hash)) := by
  refine ⟨?_, ?_, ?_⟩
  · intro O req sg bs fp r hfs p hp hle
    unfold full_scan at hfs
    cases hft : fetch_tip_and_latest_blocks O req.chain_tip with
    | error e =>
      rw [hft] at hfs
      exact Except.noConfusion hfs
    | ok tl =>
      obtain ⟨tip, latest⟩ := tl
      rw [hft] at hfs
      simp only [] at hfs
      cases hsc : scan_keychains O sg bs TxGraph.empty req.spks_by_keychain [] with
      | error e =>
        rw [hsc] at hfs
        exact Except.noConfusion hfs
      | ok gl =>
        obtain ⟨g, las⟩ := gl
        rw [hsc] at hfs
        simp only [] at hfs
        cases hfp : (if fp then fetch_prev_txout O g else .ok g) with
        | error e =>
          rw [hfp] at hfs
          exact Except.noConfusion hfs
        | ok g2 =>
          rw [hfp] at hfs
          simp only [] at hfs
          injection hfs with hfs1
          subst hfs1
          have hanch : g2.anchors = g.anchors := by
            cases fp with
            | true =>
              rw [if_pos rfl] at hfp
              exact fetch_prev_txout_anchors O g g2 hfp
            | false =>
              rw [if_neg (by simp)] at hfp
              injection hfp with h1
              rw [← h1]
          have hp2 : p ∈ g.anchors := by
            have hp1 : p ∈ g2.anchors := hp
            rw [hanch] at hp1
            exact hp1
          have hle1 : p.1.anchor_block.height ≤ (chain_update tip latest g.anchors).height := hle
          have hle2 : p.1.anchor_block.height ≤ tip.height := by
            rw [chain_update_height] at hle1
            exact hle1
          obtain ⟨b, hb⟩ := chain_update_covers g.anchors tip latest p hp2 hle2
          show ((chain_update tip latest g.anchors).get p.1.anchor_block.height).isSome = true
          rw [hb]
          rfl
  · intro O req bs fp r hs p hp hle
    unfold syncScan at hs
    simp only [] at hs
    cases hfs : full_scan O ⟨req.chain_tip, [(0, req.spks.enum)]⟩ USIZE_MAX bs false with
    | error e =>
      rw [hfs] at hs
      exact Except.noConfusion hs
    | ok fsr =>
      rw [hfs] at hs
      simp only [] at hs
      cases hft : fetch_tip_and_latest_blocks O req.chain_tip with
      | error e =>
        rw [hft] at hs
        exact Except.noConfusion hs
      | ok tl =>
        obtain ⟨tip, latest⟩ := tl
        rw [hft] at hs
        simp only [] at hs
        cases ht : populate_with_txids O fsr.graph_update req.txids with
        | error e =>
          rw [ht] at hs
          exact Except.noConfusion hs
        | ok g1 =>
          rw [ht] at hs
          simp only [] at hs
          cases ho : populate_with_outpoints O g1 req.outpoints with
          | error e =>
            rw [ho] at hs
            exact Except.noConfusion hs
          | ok g2 =>
            rw [ho] at hs
            simp only [] at hs
            cases hfp : (if fp then fetch_prev_txout O g2 else .ok g2) with
            | error e =>
              rw [hfp] at hs
              exact Except.noConfusion hs
            | ok g3 =>
              rw [hfp] at hs
              simp only [] at hs
              injection hs with hs1
              subst hs1
              have hanch : g3.anchors = g2.anchors := by
                cases fp with
                | true =>
                  rw [if_pos rfl] at hfp
                  exact fetch_prev_txout_anchors O g2 g3 hfp
                | false =>
                  rw [if_neg (by simp)] at hfp
                  injection hfp with h1
                  rw [← h1]
              have hp2 : p ∈ g2.anchors := by
                have hp1 : p ∈ g3.anchors := hp
                rw [hanch] at hp1
                exact hp1
              have hle1 : p.1.anchor_block.height ≤
                  (chain_update tip latest g2.anchors).height := hle
              have hle2 : p.1.anchor_block.height ≤ tip.height := by
                rw [chain_update_height] at hle1
                exact hle1
              obtain ⟨b, hb⟩ := chain_update_covers g2.anchors tip latest p hp2 hle2
              show ((chain_update tip latest g2.anchors).get p.1.anchor_block.height).isSome = true
              rw [hb]
              rfl
  · intro tip latest anchors h hnone hle hex
    exact chain_update_hash_rule anchors tip latest h hnone hle hex

/-- The witness server for C1: like `O1c` but the merkle proof reports
height 1, inside the fetched window. -/
def O1w : ElectrumOracle where
  subscribeTip := .ok 1
  blockHeadersRange := fun _ _ => .ok [⟨50, 0, 0⟩, ⟨51, 0, 0⟩]
  blockHeaderAt := fun h => .ok ⟨500 + h, 90, 7⟩
  batchHistory := fun ss => .ok (ss.map (fun _ => [⟨100, 1⟩]))
  scriptHistory := fun _ => .ok []
  txGet := fun t => .ok ⟨t, [], [⟨7, 10⟩]⟩
  merkle := fun _ _ => .ok ⟨1⟩
  validMerkle := fun _ _ _ => true

def r1w : FullScanResult :=
  ⟨⟨[⟨100, [], [⟨7, 10⟩]⟩], [(⟨1, 90, ⟨1, 501⟩⟩, 100)], []⟩, ⟨⟨1, 51⟩, [⟨0, 50⟩]⟩, [(0, 0)]⟩

/-- Witness for C1: the full-scan clause, the sync clause and the hash rule,
each at concrete inputs. -/
theorem full_scan_chain_update_covers_witness :
    (r1w.chain_update.get 1).isSome = true
    ∧ ((⟨⟨[⟨100, [], [⟨7, 10⟩]⟩], [(⟨1, 90, ⟨1, 501⟩⟩, 100)], []⟩,
        ⟨⟨1, 51⟩, [⟨0, 50⟩]⟩⟩ : SyncResult).chain_update.get 1).isSome = true
    ∧ ∃ b, (chain_update ⟨⟨5, 99⟩, []⟩ [(3, 77)] [(⟨3, 0, ⟨3, 88⟩⟩, 1)]).get 3 = some b ∧
        b.height = 3 ∧
        (∀ hv, bmGet [(3, 77)] 3 = some hv → b.hash = hv) ∧
        (bmGet [(3, 77)] 3 = none →
          ∃ p, p ∈ [((⟨3, 0, ⟨3, 88⟩⟩ : ConfirmationTimeHeightAnchor), 1)] ∧
            p.1.anchor_block.height = 3 ∧ b.hash = p.1.anchor_block.hash) :=
  ⟨full_scan_chain_update_covers.1 O1w req1c 5 10 false r1w (by decide)
      (⟨1, 90, ⟨1, 501⟩⟩, 100) (by decide) (by decide),
   full_scan_chain_update_covers.2.1 O1w ⟨⟨⟨0, 50⟩, []⟩, [7], [], []⟩ 10 false
      ⟨⟨[⟨100, [], [⟨7, 10⟩]⟩], [(⟨1, 90, ⟨1, 501⟩⟩, 100)], []⟩, ⟨⟨1, 51⟩, [⟨0, 50⟩]⟩⟩
      (by decide) (⟨1, 90, ⟨1, 501⟩⟩, 100) (by decide) (by decide),
   full_scan_chain_update_covers.2.2 ⟨⟨5, 99⟩, []⟩ [(3, 77)] [(⟨3, 0, ⟨3, 88⟩⟩, 1)] 3
      (by decide) (by decide) ⟨(⟨3, 0, ⟨3, 88⟩⟩, 1), by decide, by decide⟩⟩

def r1c : FullScanResult :=
  ⟨⟨[⟨100, [], [⟨7, 10⟩]⟩], [(⟨5, 90, ⟨5, 505⟩⟩, 100)], []⟩, ⟨⟨1, 51⟩, [⟨0, 50⟩]⟩, [(0, 0)]⟩

/-- Counterexample for C1 as stated: a concrete `full_scan` run whose graph
update contains an anchor at height 5 (the server's merkle proof height moved
above the tip fetched at scan start) while the returned chain update, whose
tip height is 1, has no checkpoint at height 5. -/
theorem full_scan_anchor_without_checkpoint :
    full_scan O1c req1c 5 10 false = .ok r1c
    ∧ (⟨5, 90, ⟨5, 505⟩⟩, 100) ∈ r1c.graph_update.anchors
    ∧ r1c.chain_update.get 5 = none
    ∧ r1c.chain_update.height = 1 := by
  refine ⟨by decide, by decide, by decide, by decide⟩

/-! ### Sorted-map and tip-extension lemmas (C5) -/

theorem bmInsert_mem : ∀ (m : BMap) (e x : Nat × Nat), x ∈ bmInsert m e → x = e ∨ x ∈ m := by
  intro m
  induction m with
  | nil =>
    intro e x hx
    simp [bmInsert] at hx
    exact Or.inl hx
  | cons a rest ih =>
    intro e x hx
    unfold bmInsert at hx
    by_cases h1 : e.1 < a.1
    · rw [if_pos h1] at hx
      rcases List.mem_cons.mp hx with h | h
      · exact Or.inl h
      · exact Or.inr h
    · rw [if_neg h1] at hx
      by_cases h2 : (e.1 == a.1) = true
      · rw [if_pos h2] at hx
        rcases List.mem_cons.mp hx with h | h
        · exact Or.inl h
        · exact Or.inr (List.mem_cons_of_mem _ h)
      · rw [if_neg h2] at hx
        rcases List.mem_cons.mp hx with h | h
        · exact Or.inr (h ▸ List.mem_cons_self _ _)
        · rcases ih e x h with h3 | h3
          · exact Or.inl h3
          · exact Or.inr (List.mem_cons_of_mem _ h3)

theorem bmInsert_sorted : ∀ (m : BMap) (e : Nat × Nat), bmSorted m → bmSorted (bmInsert m e) := by
  intro m
  induction m with
  | nil =>
    intro e _
    simp [bmInsert, bmSorted]
  | cons a rest ih =>
    intro e hs
    unfold bmSorted at hs
    rw [List.pairwise_cons] at hs
    obtain ⟨ha, hrest⟩ := hs
    unfold bmInsert
    by_cases h1 : e.1 < a.1
    · rw [if_pos h1]
      unfold bmSorted
      rw [List.pairwise_cons]
      refine ⟨?_, ?_⟩
      · intro x hx
        rcases List.mem_cons.mp hx with h | h
        · rw [h]
          exact h1
        · exact Nat.lt_trans h1 (ha x h)
      · rw [List.pairwise_cons]
        exact ⟨ha, hrest⟩
    · rw [if_neg h1]
      by_cases h2 : (e.1 == a.1) = true
      · rw [if_pos h2]
        have heq : e.1 = a.1 := by simpa using h2
        unfold bmSorted
        rw [List.pairwise_cons]
        refine ⟨?_, hrest⟩
        intro x hx
        rw [heq]
        exact ha x hx
      · rw [if_neg h2]
        unfold bmSorted
        rw [List.pairwise_cons]
        refine ⟨?_, ih e hrest⟩
        intro x hx
        rcases bmInsert_mem rest e x hx with h | h
        · rw [h]
          have : e.1 ≠ a.1 := by simpa using h2
          omega
        · exact ha x h

theorem bmFoldl_sorted :
    ∀ (l : List (Nat × Nat)) (m : BMap), bmSorted m → bmSorted (l.foldl bmInsert m) := by
  intro l
  induction l with
  | nil => intro m hm; exact hm
  | cons e rest ih =>
    intro m hm
    exact ih (bmInsert m e) (bmInsert_sorted m e hm)

theorem bmInsert_ne_nil (m : BMap) (e : Nat × Nat) : bmInsert m e ≠ [] := by
  cases m with
  | nil => simp [bmInsert]
  | cons a rest =>
    unfold bmInsert
    split
    · simp
    · split
      · simp
      · simp

theorem bmGet_insert_self (m : BMap) (k v : Nat) : bmGet (bmInsert m (k, v)) k = some v := by
  induction m with
  | nil => simp [bmInsert, bmGet, List.find?]
  | cons a rest ih =>
    unfold bmInsert
    by_cases h1 : k < a.1
    · rw [if_pos h1]
      unfold bmGet
      rw [@List.find?_cons_of_pos (Nat × Nat) (fun e => e.1 == k) (k, v) (a :: rest) (by simp)]
      rfl
    · rw [if_neg h1]
      by_cases h2 : ((k, v).1 == a.1) = true
      · rw [if_pos h2]
        unfold bmGet
        rw [@List.find?_cons_of_pos (Nat × Nat) (fun e => e.1 == k) (k, v) rest (by simp)]
        rfl
      · rw [if_neg h2]
        have hka : ¬ k = a.1 := by simpa using h2
        unfold bmGet
        rw [@List.find?_cons_of_neg (Nat × Nat) (fun e => e.1 == k) a
          (bmInsert rest (k, v)) (by simp; omega)]
        exact ih

theorem bmGet_insert_other (m : BMap) (k v k2 : Nat) (hne : k2 ≠ k) :
    bmGet (bmInsert m (k, v)) k2 = bmGet m k2 := by
  induction m with
  | nil =>
    unfold bmInsert bmGet
    rw [@List.find?_cons_of_neg (Nat × Nat) (fun e => e.1 == k2) (k, v) [] (by simp; omega)]
  | cons a rest ih =>
    unfold bmInsert
    by_cases h1 : k < a.1
    · rw [if_pos h1]
      unfold bmGet
      rw [@List.find?_cons_of_neg (Nat × Nat) (fun e => e.1 == k2) (k, v) (a :: rest)
        (by simp; omega)]
    · rw [if_neg h1]
      by_cases h2 : ((k, v).1 == a.1) = true
      · rw [if_pos h2]
        have heq : k = a.1 := by simpa using h2
        unfold bmGet
        rw [@List.find?_cons_of_neg (Nat × Nat) (fun e => e.1 == k2) (k, v) rest
          (by simp; omega)]
        conv =>
          rhs
          rw [@List.find?_cons_of_neg (Nat × Nat) (fun e => e.1 == k2) a rest (by simp; omega)]
      · rw [if_neg h2]
        by_cases h3 : (a.1 == k2) = true
        · unfold bmGet
          rw [@List.find?_cons_of_pos (Nat × Nat) (fun e => e.1 == k2) a
            (bmInsert rest (k, v)) h3]
          rw [@List.find?_cons_of_pos (Nat × Nat) (fun e => e.1 == k2) a rest h3]
        · unfold bmGet
          rw [@List.find?_cons_of_neg (Nat × Nat) (fun e => e.1 == k2) a
            (bmInsert rest (k, v)) h3]
          rw [@List.find?_cons_of_neg (Nat × Nat) (fun e => e.1 == k2) a rest h3]
          exact ih

theorem bmFoldl_get_preserved :
    ∀ (l : List (Nat × Nat)) (m : BMap) (k : Nat), (∀ e ∈ l, e.1 ≠ k) →
      bmGet (l.foldl bmInsert m) k = bmGet m k := by
  intro l
  induction l with
  | nil => intro m k _; rfl
  | cons e rest ih =>
    intro m k hk
    have h1 : e.1 ≠ k := hk e (List.mem_cons_self _ _)
    rw [List.foldl_cons, ih (bmInsert m e) k (fun e2 he2 => hk e2 (List.mem_cons_of_mem _ he2))]
    obtain ⟨ek, ev⟩ := e
    exact bmGet_insert_other m ek ev k (fun h => h1 h.symm)

theorem bmWindow_get :
    ∀ (hs : List Nat) (start : Nat) (m : BMap) (i : Nat), i < hs.length →
      bmGet (((List.range' start hs.length).zip hs).foldl bmInsert m) (start + i) =
        hs.get? i := by
  intro hs
  induction hs with
  | nil =>
    intro start m i hi
    simp at hi
  | cons h0 tl ih =>
    intro start m i hi
    have hzip : (List.range' start (h0 :: tl).length).zip (h0 :: tl) =
        (start, h0) :: (List.range' (start + 1) tl.length).zip tl := by
      simp [List.range']
    rw [hzip, List.foldl_cons]
    cases i with
    | zero =>
      rw [bmFoldl_get_preserved]
      · rw [Nat.add_zero, bmGet_insert_self]
        rfl
      · intro e he
        have h1 := List.of_mem_zip he
        have h2 := h1.1
        rw [List.mem_range'] at h2
        omega
    | succ j =>
      have hj : j < tl.length := by simpa using hi
      have := ih (start + 1) (bmInsert m (start, h0)) j hj
      rw [show start + (j + 1) = start + 1 + j by omega]
      rw [this]
      rfl

theorem walk_preserves_get (O : ElectrumOracle) (nth : Nat) :
    ∀ (l : List CheckPoint) (m : BMap) (ag : Option CheckPoint) (m2 : BMap) (k v : Nat),
      bmGet m k = some v → agreement_walk_el O nth l m = .ok (ag, m2) →
      bmGet m2 k = some v := by
  intro l
  induction l with
  | nil =>
    intro m ag m2 k v hk h
    injection h with h1
    injection h1 with h2 h3
    rw [← h3]
    exact hk
  | cons cp rest ih =>
    intro m ag m2 k v hk h
    unfold agreement_walk_el at h
    simp only [] at h
    cases hg : bmGet m cp.blockId.height with
    | some hv =>
      rw [hg] at h
      simp only [] at h
      split at h
      · injection h with h1
        injection h1 with h2 h3
        rw [← h3]
        exact hk
      · exact ih m ag m2 k v hk h
    | none =>
      rw [hg] at h
      simp only [] at h
      split at h
      · exact Except.noConfusion h
      · cases hhd : O.blockHeaderAt cp.blockId.height with
        | error e =>
          rw [hhd] at h
          exact Except.noConfusion h
        | ok hd =>
          rw [hhd] at h
          simp only [] at h
          have hne : cp.blockId.height ≠ k := by
            intro heq
            rw [heq, hk] at hg
            exact Option.noConfusion hg
          have hk2 : bmGet (bmInsert m (cp.blockId.height, hd.hashv)) k = some v := by
            rw [bmGet_insert_other m _ _ k (fun e => hne e.symm)]
            exact hk
          split at h
          · injection h with h1
            injection h1 with h2 h3
            rw [← h3]
            exact hk2
          · exact ih _ ag m2 k v hk2 h

theorem walk_sorted (O : ElectrumOracle) (nth : Nat) :
    ∀ (l : List CheckPoint) (m : BMap) (ag : Option CheckPoint) (m2 : BMap),
      bmSorted m → agreement_walk_el O nth l m = .ok (ag, m2) → bmSorted m2 := by
  intro l
  induction l with
  | nil =>
    intro m ag m2 hm h
    injection h with h1
    injection h1 with h2 h3
    rw [← h3]
    exact hm
  | cons cp rest ih =>
    intro m ag m2 hm h
    unfold agreement_walk_el at h
    simp only [] at h
    cases hg : bmGet m cp.blockId.height with
    | some hv =>
      rw [hg] at h
      simp only [] at h
      split at h
      · injection h with h1
        injection h1 with h2 h3
        rw [← h3]
        exact hm
      · exact ih m ag m2 hm h
    | none =>
      rw [hg] at h
      simp only [] at h
      split at h
      · exact Except.noConfusion h
      · cases hhd : O.blockHeaderAt cp.blockId.height with
        | error e =>
          rw [hhd] at h
          exact Except.noConfusion h
        | ok hd =>
          rw [hhd] at h
          simp only [] at h
          have hm2 := bmInsert_sorted m (cp.blockId.height, hd.hashv) hm
          split at h
          · injection h with h1
            injection h1 with h2 h3
            rw [← h3]
            exact hm2
          · exact ih _ ag m2 hm2 h

theorem walk_nonempty (O : ElectrumOracle) (nth : Nat) :
    ∀ (l : List CheckPoint) (m : BMap) (ag : Option CheckPoint) (m2 : BMap),
      (l ≠ [] ∨ m ≠ []) → agreement_walk_el O nth l m = .ok (ag, m2) → m2 ≠ [] := by
  intro l
  induction l with
  | nil =>
    intro m ag m2 hne h
    injection h with h1
    injection h1 with h2 h3
    rw [← h3]
    rcases hne with h4 | h4
    · exact absurd rfl h4
    · exact h4
  | cons cp rest ih =>
    intro m ag m2 _ h
    unfold agreement_walk_el at h
    simp only [] at h
    cases hg : bmGet m cp.blockId.height with
    | some hv =>
      have hmne : m ≠ [] := by
        intro hnil
        rw [hnil] at hg
        simp [bmGet, List.find?] at hg
      rw [hg] at h
      simp only [] at h
      split at h
      · injection h with h1
        injection h1 with h2 h3
        rw [← h3]
        exact hmne
      · exact ih m ag m2 (Or.inr hmne) h
    | none =>
      rw [hg] at h
      simp only [] at h
      split at h
      · exact Except.noConfusion h
      · cases hhd : O.blockHeaderAt cp.blockId.height with
        | error e =>
          rw [hhd] at h
          exact Except.noConfusion h
        | ok hd =>
          rw [hhd] at h
          simp only [] at h
          have hne2 := bmInsert_ne_nil m (cp.blockId.height, hd.hashv)
          split at h
          · injection h with h1
            injection h1 with h2 h3
            rw [← h3]
            exact hne2
          · exact ih _ ag m2 (Or.inr hne2) h

theorem walk_no_panic (O : ElectrumOracle) (nth : Nat) :
    ∀ (l : List CheckPoint) (m : BMap) (k : PanicKind),
      (∀ c ∈ l, c.blockId.height ≤ nth) →
      agreement_walk_el O nth l m ≠ .error (.panic k) := by
  intro l
  induction l with
  | nil =>
    intro m k _ h
    exact Except.noConfusion h
  | cons cp rest ih =>
    intro m k hb h
    unfold agreement_walk_el at h
    simp only [] at h
    cases hg : bmGet m cp.blockId.height with
    | some hv =>
      rw [hg] at h
      simp only [] at h
      split at h
      · exact Except.noConfusion h
      · exact ih m k (fun c hc => hb c (List.mem_cons_of_mem _ hc)) h
    | none =>
      rw [hg] at h
      simp only [] at h
      split at h
      · rename_i hlt
        exact absurd (hb cp (List.mem_cons_self _ _)) (by omega)
      · cases hhd : O.blockHeaderAt cp.blockId.height with
        | error e =>
          rw [hhd] at h
          injection h with h1
          exact ElErr.noConfusion h1
        | ok hd =>
          rw [hhd] at h
          simp only [] at h
          split at h
          · exact Except.noConfusion h
          · exact ih _ k (fun c hc => hb c (List.mem_cons_of_mem _ hc)) h

/-- Convert a (possibly empty) tip-first block list into a checkpoint. -/
def listToCP : List BlockId → Option CheckPoint
  | [] => none
  | x :: xs => some ⟨x, xs⟩

def optList : Option CheckPoint → List BlockId
  | none => []
  | some cp => cp.toList

theorem extend_tip_spec :
    ∀ (entries : List (Nat × Nat)) (base : Option CheckPoint),
      entries.Pairwise (fun a b => a.1 < b.1) →
      (∀ e ∈ entries, ∀ cp, base = some cp → cp.height < e.1) →
      extend_tip base entries =
        .ok (listToCP ((entries.reverse.map (fun e => BlockId.mk e.1 e.2)) ++ optList base)) := by
  intro entries
  induction entries with
  | nil =>
    intro base _ _
    cases base with
    | none => rfl
    | some cp => rfl
  | cons e rest ih =>
    intro base hpw hb
    rw [List.pairwise_cons] at hpw
    obtain ⟨he, hrest⟩ := hpw
    cases base with
    | some cp =>
      have hlt : cp.height < e.1 := hb e (List.mem_cons_self _ _) cp rfl
      have hpush : cp.push ⟨e.1, e.2⟩ = some ⟨⟨e.1, e.2⟩, cp.toList⟩ := by
        unfold CheckPoint.push
        rw [if_pos hlt]
      have hstep : extend_tip (some cp) (e :: rest) =
          extend_tip (some ⟨⟨e.1, e.2⟩, cp.toList⟩) rest := by
        unfold extend_tip
        rw [List.foldlM_cons]
        simp only [hpush]
        rfl
      rw [hstep]
      rw [ih (some ⟨⟨e.1, e.2⟩, cp.toList⟩) hrest ?_]
      · simp [optList, CheckPoint.toList, List.map_append]
      · intro e2 he2 cp2 hcp2
        injection hcp2 with h1
        rw [← h1]
        exact he e2 he2
    | none =>
      have hstep : extend_tip none (e :: rest) =
          extend_tip (some ⟨⟨e.1, e.2⟩, []⟩) rest := by
        unfold extend_tip
        rw [List.foldlM_cons]
        rfl
      rw [hstep]
      rw [ih (some ⟨⟨e.1, e.2⟩, []⟩) hrest ?_]
      · simp [optList, CheckPoint.toList, List.map_append]
      · intro e2 he2 cp2 hcp2
        injection hcp2 with h1
        rw [← h1]
        exact he e2 he2

theorem iterList_tip_mem : ∀ (l : List BlockId) (c : CheckPoint), c ∈ iterList l → c.tip ∈ l := by
  intro l
  induction l with
  | nil =>
    intro c hc
    simp [iterList] at hc
  | cons b t ih =>
    intro c hc
    unfold iterList at hc
    rcases List.mem_cons.mp hc with h | h
    · rw [h]
      exact List.mem_cons_self _ _
    · exact List.mem_cons_of_mem _ (ih c h)

theorem wf_height_bound (cp : CheckPoint) (hwf : cp.WF) :
    ∀ b ∈ cp.toList, b.height ≤ cp.height := by
  intro b hb
  unfold CheckPoint.WF CheckPoint.toList at hwf
  unfold CheckPoint.toList at hb
  rw [List.pairwise_cons] at hwf
  rcases List.mem_cons.mp hb with h | h
  · rw [h]
    exact Nat.le_refl cp.height
  · exact Nat.le_of_lt (hwf.1 b h)

theorem iterCPs_ne_nil (cp : CheckPoint) : cp.iterCPs ≠ [] := by
  unfold CheckPoint.iterCPs CheckPoint.toList iterList
  simp

theorem listToCP_eq_none (l : List BlockId) : listToCP l = none ↔ l = [] := by
  cases l with
  | nil => simp [listToCP]
  | cons x xs => simp [listToCP]

/-- C5: `fetch_tip_and_latest_blocks`.  (i) If the server's tip height is
below the caller's previous tip, return `(prev_tip, ∅)`.  (ii) On a
well-formed previous tip the function never panics: in particular the final
`.expect("must have at least one checkpoint")` never fires, so the resulting
tip always holds at least one checkpoint, and every push in the increasing-
height fold succeeds.  (iii) Otherwise, the returned recent-blocks mapping
contains the fetched window of `CHAIN_SUFFIX_LENGTH = 8` most recent heights,
and the new tip is built from the agreement checkpoint (or none) by pushing
every recent-blocks entry above the agreement height in increasing-height
order. -/
theorem fetch_tip_and_latest_blocks_spec :
    (∀ O (prev_tip : CheckPoint) h, O.subscribeTip = .ok h →
      h % U32 < prev_tip.height →
      fetch_tip_and_latest_blocks O prev_tip = .ok (prev_tip, []))
    ∧ (∀ O (prev_tip : CheckPoint) k, prev_tip.WF →
        fetch_tip_and_latest_blocks O prev_tip ≠ .error (.panic k))
    ∧ (∀ O (prev_tip : CheckPoint) h hdrs tip2 blocks,
        O.subscribeTip = .ok h → ¬ h % U32 < prev_tip.height →
        O.blockHeadersRange (h % U32 - (CHAIN_SUFFIX_LENGTH - 1)) CHAIN_SUFFIX_LENGTH =
          .ok hdrs →
        fetch_tip_and_latest_blocks O prev_tip = .ok (tip2, blocks) →
        (∀ i, ∀ hi : i < hdrs.length,
          bmGet blocks (h % U32 - (CHAIN_SUFFIX_LENGTH - 1) + i) =
            some (hdrs.get ⟨i, hi⟩).hashv)
        ∧ ∃ ag m2,
            agreement_walk_el O (h % U32) prev_tip.iterCPs
              (((List.range' (h % U32 - (CHAIN_SUFFIX_LENGTH - 1)) hdrs.length).zip
                (hdrs.map Header.hashv)).foldl bmInsert []) = .ok (ag, m2) ∧
            blocks = m2 ∧
            tip2.toList =
              ((m2.filter (fun e =>
                match ag.map CheckPoint.height with
                | none => true
                | some ah => ah < e.1)).reverse.map (fun e => BlockId.mk e.1 e.2)) ++
              (match ag with | none => [] | some cp => cp.toList)) := by
  refine ⟨?_, ?_, ?_⟩
  · intro O prev_tip h hsub hlt
    unfold fetch_tip_and_latest_blocks
    rw [hsub]
    simp only []
    rw [if_pos hlt]
  · intro O prev_tip k hwf hcontra
    unfold fetch_tip_and_latest_blocks at hcontra
    cases hsub : O.subscribeTip with
    | error e =>
      rw [hsub] at hcontra
      injection hcontra with h1
      exact ElErr.noConfusion h1
    | ok h =>
      rw [hsub] at hcontra
      simp only [] at hcontra
      by_cases hlt : h % U32 < prev_tip.height
      · rw [if_pos hlt] at hcontra
        exact Except.noConfusion hcontra
      · rw [if_neg hlt] at hcontra
        cases hhr : O.blockHeadersRange (h % U32 - (CHAIN_SUFFIX_LENGTH - 1))
            CHAIN_SUFFIX_LENGTH with
        | error e =>
          rw [hhr] at hcontra
          injection hcontra with h1
          exact ElErr.noConfusion h1
        | ok hdrs =>
          rw [hhr] at hcontra
          simp only [] at hcontra
          have hbound : ∀ c ∈ prev_tip.iterCPs, c.blockId.height ≤ h % U32 := by
            intro c hc
            have h1 := iterList_tip_mem prev_tip.toList c hc
            have h2 := wf_height_bound prev_tip hwf c.tip h1
            have h3 : c.blockId.height = c.tip.height := rfl
            omega
          cases hw : agreement_walk_el O (h % U32) prev_tip.iterCPs
              (((List.range' (h % U32 - (CHAIN_SUFFIX_LENGTH - 1)) hdrs.length).zip
                (hdrs.map Header.hashv)).foldl bmInsert []) with
          | error e =>
            rw [hw] at hcontra
            injection hcontra with h1
            rw [h1] at hw
            exact walk_no_panic O (h % U32) prev_tip.iterCPs _ k hbound hw
          | ok r =>
            obtain ⟨ag, m2⟩ := r
            rw [hw] at hcontra
            simp only [] at hcontra
            have hsorted : bmSorted m2 :=
              walk_sorted O (h % U32) prev_tip.iterCPs _ ag m2
                (bmFoldl_sorted _ [] List.Pairwise.nil) hw
            have hps : (m2.filter (fun e =>
                match ag.map CheckPoint.height with
                | none => true
                | some ah => ah < e.1)).Pairwise (fun a b => a.1 < b.1) :=
              hsorted.filter _
            have hbnd : ∀ e ∈ m2.filter (fun e =>
                match ag.map CheckPoint.height with
                | none => true
                | some ah => ah < e.1), ∀ cp, ag = some cp → cp.height < e.1 := by
              intro e he cp hag
              have hpe := List.of_mem_filter he
              rw [hag] at hpe
              simp only [Option.map_some'] at hpe
              exact of_decide_eq_true hpe
            have hext := extend_tip_spec _ ag hps hbnd
            rw [hext] at hcontra
            cases hl : listToCP
                (((m2.filter (fun e =>
                  match ag.map CheckPoint.height with
                  | none => true
                  | some ah => ah < e.1)).reverse.map (fun e => BlockId.mk e.1 e.2)) ++
                  optList ag) with
            | some tip2 =>
              rw [hl] at hcontra
              exact Except.noConfusion hcontra
            | none =>
              cases hag : ag with
              | some cp =>
                rw [hag] at hl
                rw [listToCP_eq_none] at hl
                simp [optList, CheckPoint.toList] at hl
              | none =>
                rw [hag] at hl
                rw [listToCP_eq_none] at hl
                have hm2 : m2 ≠ [] :=
                  walk_nonempty O (h % U32) prev_tip.iterCPs _ ag m2
                    (Or.inl (iterCPs_ne_nil prev_tip)) hw
                simp [optList] at hl
                exact hm2 hl
  · intro O prev_tip h hdrs tip2 blocks hsub hlt hhr hres
    unfold fetch_tip_and_latest_blocks at hres
    rw [hsub] at hres
    simp only [] at hres
    rw [if_neg hlt] at hres
    rw [hhr] at hres
    simp only [] at hres
    cases hw : agreement_walk_el O (h % U32) prev_tip.iterCPs
        (((List.range' (h % U32 - (CHAIN_SUFFIX_LENGTH - 1)) hdrs.length).zip
          (hdrs.map Header.hashv)).foldl bmInsert []) with
    | error e =>
      rw [hw] at hres
      exact Except.noConfusion hres
    | ok r =>
      obtain ⟨ag, m2⟩ := r
      rw [hw] at hres
      simp only [] at hres
      have hsorted : bmSorted m2 :=
        walk_sorted O (h % U32) prev_tip.iterCPs _ ag m2
          (bmFoldl_sorted _ [] List.Pairwise.nil) hw
      have hps : (m2.filter (fun e =>
          match ag.map CheckPoint.height with
          | none => true
          | some ah => ah < e.1)).Pairwise (fun a b => a.1 < b.1) :=
        hsorted.filter _
      have hbnd : ∀ e ∈ m2.filter (fun e =>
          match ag.map CheckPoint.height with
          | none => true
          | some ah => ah < e.1), ∀ cp, ag = some cp → cp.height < e.1 := by
        intro e he cp hag
        have hpe := List.of_mem_filter he
        rw [hag] at hpe
        simp only [Option.map_some'] at hpe
        exact of_decide_eq_true hpe
      have hext := extend_tip_spec _ ag hps hbnd
      rw [hext] at hres
      cases hl : listToCP
          (((m2.filter (fun e =>
            match ag.map CheckPoint.height with
            | none => true
            | some ah => ah < e.1)).reverse.map (fun e => BlockId.mk e.1 e.2)) ++
            optList ag) with
      | none =>
        rw [hl] at hres
        exact Except.noConfusion hres
      | some tip3 =>
        rw [hl] at hres
        injection hres with hres1
        injection hres1 with hresA hresB
        subst hresA
        subst hresB
        constructor
        · intro i hi
          have hlen : (hdrs.map Header.hashv).length = hdrs.length := by simp
          have hwg := bmWindow_get (hdrs.map Header.hashv)
            (h % U32 - (CHAIN_SUFFIX_LENGTH - 1)) [] i (by simpa using hi)
          rw [hlen] at hwg
          have hget : (hdrs.map Header.hashv).get? i = some (hdrs.get ⟨i, hi⟩).hashv := by
            rw [List.get?_map, List.get?_eq_get hi]
            rfl
          rw [hget] at hwg
          exact walk_preserves_get O (h % U32) prev_tip.iterCPs _ ag m2 _ _ hwg hw
        · refine ⟨ag, m2, rfl, rfl, ?_⟩
          unfold listToCP at hl
          cases hcase : ((m2.filter (fun e =>
              match ag.map CheckPoint.height with
              | none => true
              | some ah => ah < e.1)).reverse.map (fun e => BlockId.mk e.1 e.2)) ++
              optList ag with
          | nil =>
            rw [hcase] at hl
            exact Option.noConfusion hl
          | cons x xs =>
            rw [hcase] at hl
            injection hl with hl1
            rw [← hl1]
            unfold CheckPoint.toList
            rw [← hcase]
            cases hag : ag with
            | none => rfl
            | some cp => rfl

/-- Witness for C5: the early-return clause, the no-panic clause, and the
window clause (at index 1), each at concrete inputs over `O1c`. -/
theorem fetch_tip_and_latest_blocks_spec_witness :
    fetch_tip_and_latest_blocks O1c ⟨⟨3, 50⟩, []⟩ = .ok (⟨⟨3, 50⟩, []⟩, [])
    ∧ fetch_tip_and_latest_blocks O1c ⟨⟨0, 50⟩, []⟩ ≠ .error (.panic .noCheckpoint)
    ∧ bmGet [(0, 50), (1, 51)] (1 % U32 - (CHAIN_SUFFIX_LENGTH - 1) + 1) =
        some (([⟨50, 0, 0⟩, ⟨51, 0, 0⟩] : List Header).get ⟨1, by decide⟩).hashv :=
  ⟨fetch_tip_and_latest_blocks_spec.1 O1c ⟨⟨3, 50⟩, []⟩ 1 rfl (by decide),
   fetch_tip_and_latest_blocks_spec.2.1 O1c ⟨⟨0, 50⟩, []⟩ PanicKind.noCheckpoint (by decide),
   (fetch_tip_and_latest_blocks_spec.2.2 O1c ⟨⟨0, 50⟩, []⟩ 1 [⟨50, 0, 0⟩, ⟨51, 0, 0⟩]
      ⟨⟨1, 51⟩, [⟨0, 50⟩]⟩ [(0, 50), (1, 51)] rfl (by decide) rfl (by decide)).1 1 (by decide)⟩

/-! ### Gap-limit characterization (C2) -/

/-- Reference recursion for the gap-limit loop at batch size 1: scanning from
position `p` with `q` scripts left, a running count of consecutive unused
scripts and a last-active index, return the final last-active index and the
number of scripts processed (queried). -/
def gapScan (H : Nat → List HistoryItem) (sg : Nat) :
    Nat → Nat → Nat → Option Nat → Option Nat × Nat
  | _, 0, _, la => (la, 0)
  | p, q + 1, unused, la =>
    if H p = [] then
      if sg < unused + 1 then (la, 1)
      else
        let r := gapScan H sg (p + 1) q (unused + 1) la
        (r.1, r.2 + 1)
    else
      let r := gapScan H sg (p + 1) q 0 (some p)
      (r.1, r.2 + 1)

theorem gapScan_zero (H : Nat → List HistoryItem) (sg p u : Nat) (la : Option Nat) :
    gapScan H sg p 0 u la = (la, 0) := rfl

theorem gapScan_succ (H : Nat → List HistoryItem) (sg p q u : Nat) (la : Option Nat) :
    gapScan H sg p (q + 1) u la =
      if H p = [] then
        if sg < u + 1 then (la, 1)
        else ((gapScan H sg (p + 1) q (u + 1) la).1, (gapScan H sg (p + 1) q (u + 1) la).2 + 1)
      else ((gapScan H sg (p + 1) q 0 (some p)).1, (gapScan H sg (p + 1) q 0 (some p)).2 + 1) := rfl

/-- The canonical keychain enumeration `(index, script)` from position `p`. -/
def enumSpks (sc : Nat → ScriptT) (p q : Nat) : List (Nat × ScriptT) :=
  (List.range' p q).map (fun i => (i, sc i))

theorem gapScan_le (H : Nat → List HistoryItem) (sg : Nat) :
    ∀ q p u la, (gapScan H sg p q u la).2 ≤ q := by
  intro q
  induction q with
  | zero =>
    intro p u la
    simp [gapScan_zero]
  | succ q ih =>
    intro p u la
    rw [gapScan_succ]
    by_cases hH : H p = []
    · rw [if_pos hH]
      by_cases hstop : sg < u + 1
      · rw [if_pos hstop]
        simp
      · rw [if_neg hstop]
        have := ih (p + 1) (u + 1) la
        simp only []
        omega
    · rw [if_neg hH]
      have := ih (p + 1) 0 (some p)
      simp only []
      omega

theorem populate_go_bs1_gapScan
    (O : ElectrumOracle) (hist : ScriptT → List HistoryItem) (sc : Nat → ScriptT)
    (hO : ∀ s, O.batchHistory [s] = .ok [hist s]) (sg : Nat) :
    ∀ q fuel p g unused la trace g2 la2 trace2, q < fuel →
      populate_go O sg 1 fuel g (enumSpks sc p q) unused la trace = .ok (g2, la2, trace2) →
      la2 = (gapScan (fun i => hist (sc i)) sg p q unused la).1 ∧
      trace2 = trace ++
        (List.range' p (gapScan (fun i => hist (sc i)) sg p q unused la).2).map
          (fun i => (i, hist (sc i))) := by
  intro q
  induction q with
  | zero =>
    intro fuel p g unused la trace g2 la2 trace2 hfuel hp
    cases fuel with
    | zero => omega
    | succ f =>
      have henum : enumSpks sc p 0 = [] := rfl
      rw [henum] at hp
      rw [populate_go] at hp
      simp only [List.take_nil, List.isEmpty_nil, if_true] at hp
      injection hp with hp1
      injection hp1 with hpA hpB
      injection hpB with hpC hpD
      subst hpC
      subst hpD
      refine ⟨rfl, ?_⟩
      simp [gapScan_zero]
  | succ q ih =>
    intro fuel p g unused la trace g2 la2 trace2 hfuel hp
    cases fuel with
    | zero => omega
    | succ f =>
      have henum : enumSpks sc p (q + 1) = (p, sc p) :: enumSpks sc (p + 1) q := rfl
      rw [henum] at hp
      rw [populate_go] at hp
      simp only [] at hp
      rw [show (((p, sc p) :: enumSpks sc (p + 1) q).take 1) = [(p, sc p)] from rfl] at hp
      rw [if_neg (by simp)] at hp
      rw [show ([((p : Nat), sc p)].map Prod.snd) = [sc p] from rfl] at hp
      rw [hO (sc p)] at hp
      simp only [] at hp
      rw [show ([((p : Nat), sc p)].zip [hist (sc p)]) = [((p, sc p), hist (sc p))] from rfl] at hp
      rw [show (([(((p : Nat), sc p), hist (sc p))]).map (fun e => (e.1.1, e.2))) = [(p, hist (sc p))] from rfl] at hp
      rw [show (((p, sc p) :: enumSpks sc (p + 1) q).drop 1) = enumSpks sc (p + 1) q from rfl] at hp
      rw [process_batch] at hp
      by_cases hH : hist (sc p) = []
      · have hHe : (hist (sc p)).isEmpty = true := by
          rw [hH]
          rfl
        rw [hHe] at hp
        rw [if_pos rfl] at hp
        by_cases hstop : sg < unused + 1
        · rw [if_pos hstop] at hp
          simp only [] at hp
          injection hp with hp1
          injection hp1 with hpA hpB
          injection hpB with hpC hpD
          subst hpC
          subst hpD
          refine ⟨?_, ?_⟩
          · rw [gapScan_succ, if_pos hH, if_pos hstop]
          · rw [gapScan_succ, if_pos hH, if_pos hstop]
            simp [List.range'_one, hH]
        · rw [if_neg hstop] at hp
          rw [process_batch] at hp
          simp only [] at hp
          obtain ⟨h1, h2⟩ := ih f (p + 1) g (unused + 1) la
            (trace ++ [(p, hist (sc p))]) g2 la2 trace2 (by omega) hp
          refine ⟨?_, ?_⟩
          · rw [h1, gapScan_succ, if_pos hH, if_neg hstop]
          · rw [h2, gapScan_succ, if_pos hH, if_neg hstop]
            simp only []
            rw [show List.range' p ((gapScan (fun i => hist (sc i)) sg (p + 1) q (unused + 1) la).2 + 1) = p :: List.range' (p + 1) (gapScan (fun i => hist (sc i)) sg (p + 1) q (unused + 1) la).2 from rfl]
            rw [List.map_cons]
            simp [hH]
      · have hHe : (hist (sc p)).isEmpty = false := by
          cases hcase : hist (sc p) with
          | nil => exact absurd hcase hH
          | cons x xs => rfl
        rw [hHe] at hp
        rw [if_neg (by simp)] at hp
        cases ha : anchorHistory O g (hist (sc p)) with
        | error e =>
          rw [ha] at hp
          simp only [] at hp
          exact Except.noConfusion hp
        | ok g1 =>
          rw [ha] at hp
          simp only [] at hp
          rw [process_batch] at hp
          simp only [] at hp
          obtain ⟨h1, h2⟩ := ih f (p + 1) g1 0 (some p)
            (trace ++ [(p, hist (sc p))]) g2 la2 trace2 (by omega) hp
          refine ⟨?_, ?_⟩
          · rw [h1, gapScan_succ, if_neg hH]
          · rw [h2, gapScan_succ, if_neg hH]
            simp only []
            rw [show List.range' p ((gapScan (fun i => hist (sc i)) sg (p + 1) q 0 (some p)).2 + 1) = p :: List.range' (p + 1) (gapScan (fun i => hist (sc i)) sg (p + 1) q 0 (some p)).2 from rfl]
            rw [List.map_cons]
            simp

theorem gapScan_characterization (H : Nat → List HistoryItem) (sg : Nat) :
    ∀ q p u la, u ≤ sg →
      ((gapScan H sg p q u la).1 = la ∧
        (gapScan H sg p q u la).2 = min q (sg + 1 - u) ∧
        (∀ i, p ≤ i → i < p + (gapScan H sg p q u la).2 → H i = []))
      ∨ (∃ k, (gapScan H sg p q u la).1 = some k ∧ p ≤ k ∧
          k < p + (gapScan H sg p q u la).2 ∧ H k ≠ [] ∧
          (∀ i, k < i → i < p + (gapScan H sg p q u la).2 → H i = []) ∧
          (gapScan H sg p q u la).2 = (k - p + 1) + min (q - (k - p + 1)) (sg + 1)) := by
  intro q
  induction q with
  | zero =>
    intro p u la hu
    left
    rw [gapScan_zero]
    refine ⟨rfl, by simp, ?_⟩
    intro i h1 h2
    omega
  | succ q ih =>
    intro p u la hu
    rw [gapScan_succ]
    by_cases hH : H p = []
    · rw [if_pos hH]
      by_cases hstop : sg < u + 1
      · rw [if_pos hstop]
        left
        refine ⟨rfl, by omega, ?_⟩
        intro i h1 h2
        simp only [] at h2
        have : i = p := by omega
        rw [this]
        exact hH
      · rw [if_neg hstop]
        rcases ih (p + 1) (u + 1) la (by omega) with ⟨h1, h2, h3⟩ | ⟨k, h1, h2, h3, h4, h5, h6⟩
        · left
          refine ⟨h1, by omega, ?_⟩
          intro i hi1 hi2
          by_cases hip : i = p
          · rw [hip]
            exact hH
          · exact h3 i (by omega) (by omega)
        · right
          refine ⟨k, h1, by omega, by omega, h4, ?_, by omega⟩
          intro i hi1 hi2
          exact h5 i hi1 (by omega)
    · rw [if_neg hH]
      rcases ih (p + 1) 0 (some p) (by omega) with ⟨h1, h2, h3⟩ | ⟨k, h1, h2, h3, h4, h5, h6⟩
      · right
        refine ⟨p, h1, le_refl p, by omega, hH, ?_, by omega⟩
        intro i hi1 hi2
        exact h3 i (by omega) (by omega)
      · right
        refine ⟨k, h1, by omega, by omega, h4, ?_, by omega⟩
        intro i hi1 hi2
        exact h5 i hi1 (by omega)

/-- The identity keychain enumeration used in the C2 scenario. -/
def sc2c : Nat → ScriptT := fun i => i

/-- C2: Gap-limit behaviour of `populate_with_spks` at batch size 1 on a fresh
scan, amended.  If the scan of the first `n` scripts of a keychain reports
last active index `k`, then the queried indices are exactly the prefix
`[0, m)` with `m = min n (k + stop_gap + 2)`: every script at an index in
`(k, m)` was queried and returned an empty history, nothing at an index
`>= m` was queried, and script `k` has nonempty history.  In particular when
`n` is large enough the last queried index is `k + stop_gap + 1`, one past
the `k + stop_gap` stated in the spec, and the loop stops exactly when
`unused_spk_count > stop_gap` or the iterator is exhausted. -/
theorem gap_limit_soundness_amended
    (O : ElectrumOracle) (hist : ScriptT → List HistoryItem) (sc : Nat → ScriptT)
    (hO : ∀ s, O.batchHistory [s] = .ok [hist s])
    (sg n : Nat) (g g2 : TxGraph) (k : Nat) (trace : List (Nat × List HistoryItem))
    (hrun : populate_with_spks O g (enumSpks sc 0 n) sg 1 = .ok (g2, some k, trace)) :
    ∃ m, trace = (List.range' 0 m).map (fun i => (i, hist (sc i))) ∧
      m = min n (k + sg + 2) ∧ k < m ∧ hist (sc k) ≠ [] ∧
      (∀ i, k < i → i < m → hist (sc i) = []) := by
  have hlen : (enumSpks sc 0 n).length = n := by
    simp [enumSpks]
  rw [populate_with_spks, hlen] at hrun
  obtain ⟨h1, h2⟩ := populate_go_bs1_gapScan O hist sc hO sg n (n + 1) 0 g 0 none [] g2
    (some k) trace (by omega) hrun
  rcases gapScan_characterization (fun i => hist (sc i)) sg n 0 0 none (by omega) with
    ⟨c1, c2, c3⟩ | ⟨k2, c1, c2, c3, c4, c5, c6⟩
  · rw [c1] at h1
    exact Option.noConfusion h1
  · rw [c1] at h1
    injection h1 with h1
    subst h1
    have hle := gapScan_le (fun i => hist (sc i)) sg n 0 0 none
    refine ⟨(gapScan (fun i => hist (sc i)) sg 0 n 0 none).2, by simpa using h2, by omega, by omega, c4, ?_⟩
    intro i hi1 hi2
    exact c5 i hi1 (by omega)

/-- Witness for C2's amended theorem: a fresh scan of four scripts with
`stop_gap = 1` against a server where only script index 0 has history. -/
theorem gap_limit_soundness_amended_witness :
    ∃ m, [(0, [(⟨100, 1⟩ : HistoryItem)]), (1, []), (2, [])] =
        (List.range' 0 m).map
          (fun i => (i, if sc2c i == 0 then [(⟨100, 1⟩ : HistoryItem)] else [])) ∧
      m = min 4 (0 + 1 + 2) ∧ 0 < m ∧
      (if sc2c 0 == 0 then [(⟨100, 1⟩ : HistoryItem)] else []) ≠ [] ∧
      (∀ i, 0 < i → i < m →
        (if sc2c i == 0 then [(⟨100, 1⟩ : HistoryItem)] else []) = []) :=
  gap_limit_soundness_amended O2c
    (fun s => if s == 0 then [⟨100, 1⟩] else []) sc2c (fun _s => rfl) 1 4
    TxGraph.empty ⟨[⟨100, [], []⟩], [], []⟩ 0
    [(0, [⟨100, 1⟩]), (1, []), (2, [])] (by decide)

/-- Counterexample to C2 as stated: with `stop_gap = 1` and last active index
`k = 0`, the spec says scripts beyond index `k + stop_gap = 1` are not
queried, yet the scan queries index 2 (it appears in the recorded
responses). -/
theorem gap_limit_queries_one_past :
    populate_with_spks O2c TxGraph.empty (enumSpks sc2c 0 4) 1 1 =
      .ok (⟨[⟨100, [], []⟩], [], []⟩, some 0, [(0, [⟨100, 1⟩]), (1, []), (2, [])]) ∧
    (2, ([] : List HistoryItem)) ∈ [(0, [(⟨100, 1⟩ : HistoryItem)]), (1, []), (2, [])] ∧
    2 > 0 + 1 := by
  refine ⟨by decide, by decide, by decide⟩
